import Mathlib

/-!
Verification of the floccus_cli bookmark document model.

This file gives a shallow embedding, in Lean 4, of the bookmark document
model of the floccus_cli repository:

* the data model (`Title`, `XbelItem`, `Xbel`) from
  floccus-xbel/src/xbel_format.rs;
* id parsing (Rust `str::parse::&lt;u64&gt;`) and decimal printing (`u64::to_string`);
* the two traversal engines (`XbelIterator`, `XbelNestingIterator`);
* highest-id computation (`Xbel::get_highest_id`), bookmark minting
  (`Xbel::new_bookmark`), address resolution (`Xbel::get_items_mut`) and the
  serializer (`Xbel::to_string`);
* the CLI mutation operations `bookmark_add` and `bookmark_rm` from
  floccus-cli/src/main.rs.

Rust panics (`unwrap`, `unimplemented!`, `unreachable!`) are modelled
explicitly: tree-level functions that can panic return `Except PanicAbort`,
and the CLI operations return a `RunOutcome` with a dedicated `panic`
constructor.  `PanicAbort.panic` models an abort of the process, as opposed
to a typed error value returned to the caller.

Mutable borrows (`&amp;mut Vec&lt;XbelItem&gt;`) are modelled as the pair of a path of
child indices (the identity of the borrowed sibling list inside the tree) and
the list value it currently denotes; writing through the borrow is
`modifyAtList` at that path.
-/

/-- The title of a bookmark or folder (struct `Title`). -/
structure Title where
  text : String
deriving Repr, DecidableEq

/-- The item enum `XbelItem` of xbel_format.rs.  The Rust `Folder` and
`Bookmark` structs are inlined as constructor fields, in declaration order:
`Folder { id, title, items }` and `Bookmark { href, id, title }`. -/
inductive XbelItem where
  | Folder (id : String) (title : Title) (items : List XbelItem)
  | Bookmark (href : String) (id : String) (title : Title)
deriving Repr

/-- `XbelItem::get_id`. -/
def XbelItem.getId : XbelItem → String
  | .Folder id _ _ => id
  | .Bookmark _ id _ => id

/-- `XbelItem::get_title`. -/
def XbelItem.getTitle : XbelItem → Title
  | .Folder _ t _ => t
  | .Bookmark _ _ t => t

/-- The aggregate root `Xbel { version, items }`. -/
structure Xbel where
  version : String
  items : List XbelItem
deriving Repr

/-- The search address enum `XbelPath`.  Ids are `u64` in Rust, modelled as
`Nat` (id values are produced by `parseU64`, which enforces the u64 bound). -/
inductive XbelPath where
  | Root
  | Id (id : Nat)
  | Path (p : String)
deriving Repr, DecidableEq

/-- Models a Rust panic: the process aborts instead of returning a value. -/
inductive PanicAbort where
  | panicked
deriving Repr, DecidableEq

/- ### Decimal parsing and printing of ids -/

/-- Numeric value of a decimal digit character, `none` on a non-digit. -/
def digitVal (c : Char) : Option Nat :=
  if c.isDigit then some (c.toNat - 48) else none

/-- Step of a left-to-right decimal accumulator. -/
def decStep (acc : Option Nat) (c : Char) : Option Nat :=
  acc.bind fun a => (digitVal c).map fun d => a * 10 + d

/-- Decimal value of a digit list, `none` if empty or containing a non-digit. -/
def parseDigits (l : List Char) : Option Nat :=
  if l.isEmpty then none else l.foldl decStep (some 0)

/-- Strips the optional leading plus sign accepted by Rust `u64::from_str`. -/
def stripPlus : List Char → List Char
  | [] => []
  | c :: rest => if c = '+' then rest else c :: rest

/-- Model of Rust `str::parse::&lt;u64&gt;`: an optional leading plus sign, then at
least one decimal digit, value below 2^64. -/
def parseU64 (s : String) : Option Nat :=
  (parseDigits (stripPlus s.data)).bind fun n => if n < 2 ^ 64 then some n else none

/-- Character of a decimal digit value. -/
def digitChar (d : Nat) : Char :=
  Char.ofNat (48 + d)

/-- Decimal digit list of a natural number (most significant first). -/
def natDigits (n : Nat) : List Char :=
  if _h : n < 10 then [digitChar n]
  else natDigits (n / 10) ++ [digitChar (n % 10)]
termination_by n
decreasing_by
  exact Nat.div_lt_self (by omega) (by omega)

/-- Model of Rust `u64::to_string`. -/
def natToString (n : Nat) : String :=
  ⟨natDigits n⟩

theorem digitVal_digitChar (d : Nat) (hd : d < 10) : digitVal (digitChar d) = some d := by
  interval_cases d <;> rfl

theorem digitChar_isDigit (d : Nat) (hd : d < 10) : (digitChar d).isDigit = true := by
  interval_cases d <;> rfl

theorem natDigits_all_digit (n : Nat) : ∀ c ∈ natDigits n, c.isDigit = true := by
  induction n using Nat.strong_induction_on with
  | _ n ih =>
    intro c hc
    rw [natDigits] at hc
    by_cases h : n < 10
    · simp [h] at hc
      subst hc
      exact digitChar_isDigit n h
    · simp [h] at hc
      rcases hc with hc | hc
      · exact ih (n / 10) (Nat.div_lt_self (by omega) (by omega)) c hc
      · subst hc
        exact digitChar_isDigit (n % 10) (Nat.mod_lt _ (by omega))

theorem natDigits_ne_nil (n : Nat) : natDigits n ≠ [] := by
  rw [natDigits]
  by_cases h : n < 10 <;> simp [h]

theorem foldl_decStep_append (l : List Char) (a : Nat) (c : Char) (d : Nat)
    (hd : digitVal c = some d) :
    (l ++ [c]).foldl decStep (some a) = ((l.foldl decStep (some a)).map fun m => m * 10 + d) := by
  induction l generalizing a with
  | nil => simp [decStep, hd]
  | cons x xs ih =>
    simp only [List.cons_append, List.foldl_cons]
    cases hx : decStep (some a) x with
    | none =>
      have hnone : ∀ l' : List Char, l'.foldl decStep none = none := by
        intro l'
        induction l' with
        | nil => rfl
        | cons y ys ihy => simp [List.foldl_cons, decStep, ihy]
      simp [hx, hnone]
    | some b => exact ih b

theorem parseDigits_natDigits (n : Nat) : parseDigits (natDigits n) = some n := by
  induction n using Nat.strong_induction_on with
  | _ n ih =>
    rw [natDigits]
    by_cases h : n < 10
    · simp [h, parseDigits, decStep, digitVal_digitChar n h]
    · simp only [h, dite_false]
      have hrec := ih (n / 10) (Nat.div_lt_self (by omega) (by omega))
      have hne := natDigits_ne_nil (n / 10)
      rw [parseDigits] at hrec ⊢
      simp only [List.isEmpty_iff, hne, if_false] at hrec
      have hnonnil : (natDigits (n / 10) ++ [digitChar (n % 10)]).isEmpty = false := by
        simp
      simp only [hnonnil, Bool.false_eq_true, if_false]
      rw [foldl_decStep_append _ _ _ (n % 10) (digitVal_digitChar _ (Nat.mod_lt _ (by omega)))]
      rw [hrec]
      have hmod : n / 10 * 10 + n % 10 = n := by omega
      simp [hmod]

theorem stripPlus_of_digits (l : List Char) (hl : ∀ c ∈ l, c.isDigit = true) :
    stripPlus l = l := by
  cases l with
  | nil => rfl
  | cons c rest =>
    have hc : c.isDigit = true := hl c (List.mem_cons_self _ _)
    rw [stripPlus, if_neg]
    intro hceq
    subst hceq
    exact absurd hc (by decide)

theorem parseU64_natToString (n : Nat) (h : n < 2 ^ 64) :
    parseU64 (natToString n) = some n := by
  rw [parseU64, natToString]
  rw [show (String.mk (natDigits n)).data = natDigits n from rfl]
  rw [stripPlus_of_digits _ (natDigits_all_digit n), parseDigits_natDigits]
  show (if n < 2 ^ 64 then some n else none) = some n
  rw [if_pos h]

/- ### Sizes and structural measures -/

mutual
/-- Number of items in the subtree rooted at an item (the item included). -/
def szItem : XbelItem → Nat
  | .Bookmark _ _ _ => 1
  | .Folder _ _ its => 1 + szList its
/-- Total number of items in a forest. -/
def szList : List XbelItem → Nat
  | [] => 0
  | i :: r => szItem i + szList r
end

theorem szList_append (a b : List XbelItem) : szList (a ++ b) = szList a + szList b := by
  induction a with
  | nil => simp [szList]
  | cons i r ih => simp [szList, ih]; omega

mutual
/-- Number of folders in the subtree rooted at an item. -/
def cfItem : XbelItem → Nat
  | .Bookmark _ _ _ => 0
  | .Folder _ _ its => 1 + cfList its
/-- Number of folders in a forest. -/
def cfList : List XbelItem → Nat
  | [] => 0
  | i :: r => cfItem i + cfList r
end

theorem cfList_append (a b : List XbelItem) : cfList (a ++ b) = cfList a + cfList b := by
  induction a with
  | nil => simp [cfList]
  | cons i r ih => simp [cfList, ih]; omega

/- ### Depth-first preorder of a forest -/

mutual
/-- Preorder sequence of the subtree rooted at an item. -/
def preorderItem : XbelItem → List XbelItem
  | .Bookmark h id t => [.Bookmark h id t]
  | .Folder id t its => .Folder id t its :: preorderList its
/-- Preorder sequence of a forest: each item, then its descendants, then its
following siblings. -/
def preorderList : List XbelItem → List XbelItem
  | [] => []
  | i :: r => preorderItem i ++ preorderList r
end

theorem preorderList_append (a b : List XbelItem) :
    preorderList (a ++ b) = preorderList a ++ preorderList b := by
  induction a with
  | nil => simp [preorderList]
  | cons i r ih => simp [preorderList, ih]

/- ### The flat DFS iterator (`XbelIterator`) -/

/-- State machine of `XbelIterator::next` after the `initial` step: the
`VecDeque` holds the items still to produce; a folder pushes its children to
the front (in order) before the folder's following siblings.  `flatSeq stack`
is the full sequence of items the iterator produces from `stack`. -/
def flatSeq : List XbelItem → List XbelItem
  | [] => []
  | .Folder id t its :: rest => .Folder id t its :: flatSeq (its ++ rest)
  | .Bookmark h id t :: rest => .Bookmark h id t :: flatSeq rest
termination_by stack => szList stack
decreasing_by
  all_goals simp [szList, szItem, szList_append]

/-- All items produced by `XbelIterator::new(x)` (the `initial` step loads
`x.items` into the deque). -/
def xbelFlatSeq (x : Xbel) : List XbelItem :=
  flatSeq x.items

theorem flatSeq_eq_preorder : ∀ (l s : List XbelItem),
    flatSeq (l ++ s) = preorderList l ++ flatSeq s
  | [], s => by simp [preorderList]
  | .Bookmark h id t :: r, s => by
    simp only [List.cons_append, flatSeq, preorderList, preorderItem]
    rw [flatSeq_eq_preorder r s]
    simp
  | .Folder id t its :: r, s => by
    simp only [List.cons_append, flatSeq, preorderList, preorderItem]
    rw [← List.append_assoc, flatSeq_eq_preorder (its ++ r) s, preorderList_append]
termination_by l s => szList (l ++ s)
decreasing_by
  all_goals simp [szList, szItem, szList_append] <;> omega

theorem flatSeq_eq_preorderList (l : List XbelItem) : flatSeq l = preorderList l := by
  have h := flatSeq_eq_preorder l []
  simpa [flatSeq] using h

/- ### The nesting DFS iterator (`XbelNestingIterator`) -/

/-- The `XbelItemOrEnd` enum: an item, or the end marker of a folder
(carrying the folder's id). -/
inductive XbelItemOrEnd where
  | Item (i : XbelItem)
  | End (id : String)
deriving Repr

/-- Measure of a nesting-iterator deque entry, for termination. -/
def nestEntrySz : XbelItemOrEnd → Nat
  | .Item i => 2 * szItem i
  | .End _ => 1

theorem nestSz_items (its : List XbelItem) :
    (List.map (nestEntrySz ∘ XbelItemOrEnd.Item) its).sum = 2 * szList its := by
  induction its with
  | nil => simp [szList]
  | cons i r ih => simp [nestEntrySz, szList, ih]; omega

/-- State machine of `XbelNestingIterator::next` after the `initial` step: a
folder pushes its end marker and then its children (in order) to the front of
the deque. -/
def nestSeq : List XbelItemOrEnd → List XbelItemOrEnd
  | [] => []
  | .Item (.Folder id t its) :: rest =>
    .Item (.Folder id t its) :: nestSeq (its.map XbelItemOrEnd.Item ++ (.End id :: rest))
  | .Item (.Bookmark h id t) :: rest => .Item (.Bookmark h id t) :: nestSeq rest
  | .End id :: rest => .End id :: nestSeq rest
termination_by stack => (stack.map nestEntrySz).sum
decreasing_by
  all_goals simp [nestEntrySz, szItem, nestSz_items] <;> omega

/-- All elements produced by `XbelNestingIterator::new(x)`. -/
def xbelNestSeq (x : Xbel) : List XbelItemOrEnd :=
  nestSeq (x.items.map XbelItemOrEnd.Item)

/-- Selects the `Item` elements, dropping folder-end markers. -/
def itemOnly : XbelItemOrEnd → Option XbelItem
  | .Item i => some i
  | .End _ => none

theorem nestSeq_eq_preorder : ∀ (l : List XbelItem) (s : List XbelItemOrEnd),
    (nestSeq (l.map XbelItemOrEnd.Item ++ s)).filterMap itemOnly =
      preorderList l ++ (nestSeq s).filterMap itemOnly
  | [], s => by simp [preorderList]
  | .Bookmark h id t :: r, s => by
    simp only [List.map_cons, List.cons_append, nestSeq, preorderList, preorderItem]
    simp only [List.filterMap_cons, itemOnly]
    rw [nestSeq_eq_preorder r s]
    simp
  | .Folder id t its :: r, s => by
    simp only [List.map_cons, List.cons_append, nestSeq, preorderList, preorderItem]
    simp only [List.filterMap_cons, itemOnly]
    rw [show (its.map XbelItemOrEnd.Item ++ (XbelItemOrEnd.End id :: (r.map XbelItemOrEnd.Item ++ s)))
          = its.map XbelItemOrEnd.Item ++ ((XbelItemOrEnd.End id :: (r.map XbelItemOrEnd.Item ++ s))) from rfl]
    rw [nestSeq_eq_preorder its (XbelItemOrEnd.End id :: (r.map XbelItemOrEnd.Item ++ s))]
    have hend : (nestSeq (XbelItemOrEnd.End id :: (r.map XbelItemOrEnd.Item ++ s))).filterMap itemOnly
        = (nestSeq (r.map XbelItemOrEnd.Item ++ s)).filterMap itemOnly := by
      simp [nestSeq, List.filterMap_cons, itemOnly]
    rw [hend, nestSeq_eq_preorder r s]
    simp
termination_by l s => ((l.map XbelItemOrEnd.Item ++ s).map nestEntrySz).sum
decreasing_by
  all_goals simp [nestEntrySz, szItem, nestSz_items] <;> omega

theorem nestSeq_filter_eq_preorderList (l : List XbelItem) :
    (nestSeq (l.map XbelItemOrEnd.Item)).filterMap itemOnly = preorderList l := by
  have h := nestSeq_eq_preorder l []
  simpa [nestSeq] using h

/- ### Highest-id computation (`Xbel::get_highest_id`) -/

/-- The fold body of `get_highest_id`: parse each produced item's id with
`unwrap` (a parse failure panics), keep the running maximum.  Models
`it.fold(0, |acc, x| ...)` over a materialized iterator sequence. -/
def foldHighest (acc : Nat) : List XbelItem → Except PanicAbort Nat
  | [] => .ok acc
  | i :: r =>
    match parseU64 i.getId with
    | none => .error .panicked
    | some n => foldHighest (if n > acc then n else acc) r

/-- `Xbel::get_highest_id`: fold of the flat DFS iterator. -/
def getHighestId (x : Xbel) : Except PanicAbort Nat :=
  foldHighest 0 (xbelFlatSeq x)

/- ### Well-formedness: every id in the tree parses as a u64 -/

mutual
/-- Every id in the subtree rooted at an item parses as a u64. -/
def wfItem : XbelItem → Bool
  | .Bookmark _ id _ => (parseU64 id).isSome
  | .Folder id _ its => (parseU64 id).isSome && wfList its
/-- Every id in a forest parses as a u64. -/
def wfList : List XbelItem → Bool
  | [] => true
  | i :: r => wfItem i && wfList r
end

theorem wfList_append (a b : List XbelItem) :
    wfList (a ++ b) = (wfList a && wfList b) := by
  induction a with
  | nil => simp [wfList]
  | cons i r ih => simp [wfList, ih, Bool.and_assoc]

/- ### The recursive maximum id, and its agreement with the fold -/

/-- Parsed id of an item, defaulting to 0 (only used on well-formed trees). -/
def pid (i : XbelItem) : Nat :=
  (parseU64 i.getId).getD 0

mutual
/-- Maximum parsed id in the subtree rooted at an item. -/
def maxItem : XbelItem → Nat
  | .Bookmark h id t => pid (.Bookmark h id t)
  | .Folder id t its => max (pid (.Folder id t its)) (maxList its)
/-- Maximum parsed id in a forest (0 if empty). -/
def maxList : List XbelItem → Nat
  | [] => 0
  | i :: r => max (maxItem i) (maxList r)
end

theorem maxList_append (a b : List XbelItem) :
    maxList (a ++ b) = max (maxList a) (maxList b) := by
  induction a with
  | nil => simp [maxList]
  | cons i r ih => simp [maxList, ih, Nat.max_assoc]

theorem foldHighest_wf (l : List XbelItem) (hwf : ∀ i ∈ l, (parseU64 i.getId).isSome = true) :
    ∀ acc, foldHighest acc l = .ok (l.foldl (fun a i => max a (pid i)) acc) := by
  induction l with
  | nil => intro acc; simp [foldHighest]
  | cons i r ih =>
    intro acc
    have hi : (parseU64 i.getId).isSome = true := hwf i (List.mem_cons_self _ _)
    cases hp : parseU64 i.getId with
    | none => rw [hp] at hi; simp at hi
    | some n =>
      simp only [foldHighest, hp]
      rw [ih (fun j hj => hwf j (List.mem_cons_of_mem _ hj))]
      have hmax : (if n > acc then n else acc) = max acc (pid i) := by
        simp only [pid, hp, Option.getD_some]
        by_cases hc : acc < n
        · simp only [gt_iff_lt, hc, if_true]
          exact (Nat.max_eq_right (Nat.le_of_lt hc)).symm
        · simp only [gt_iff_lt, hc, if_false]
          exact (Nat.max_eq_left (Nat.le_of_not_lt hc)).symm
      rw [hmax]
      simp


mutual
theorem foldl_max_preorderItem : ∀ (i : XbelItem) (acc : Nat),
    (preorderItem i).foldl (fun a j => max a (pid j)) acc = max acc (maxItem i)
  | .Bookmark h id t, acc => by
    simp [preorderItem, maxItem]
  | .Folder id t its, acc => by
    simp only [preorderItem, List.foldl_cons, maxItem]
    rw [foldl_max_preorderList its (max acc (pid (.Folder id t its)))]
    exact Nat.max_assoc acc (pid (.Folder id t its)) (maxList its)
theorem foldl_max_preorderList : ∀ (l : List XbelItem) (acc : Nat),
    (preorderList l).foldl (fun a j => max a (pid j)) acc = max acc (maxList l)
  | [], acc => by simp [preorderList, maxList]
  | i :: r, acc => by
    simp only [preorderList, List.foldl_append, maxList]
    rw [foldl_max_preorderItem i acc, foldl_max_preorderList r (max acc (maxItem i))]
    exact Nat.max_assoc acc (maxItem i) (maxList r)
end

mutual
theorem wfItem_iff_preorder : ∀ i : XbelItem,
    wfItem i = true ↔ ∀ j ∈ preorderItem i, (parseU64 j.getId).isSome = true
  | .Bookmark h id t => by
    simp [wfItem, preorderItem, XbelItem.getId]
  | .Folder id t its => by
    rw [wfItem, preorderItem]
    simp only [Bool.and_eq_true, List.mem_cons, forall_eq_or_imp]
    rw [wfList_iff_preorder its]
    simp [XbelItem.getId]
theorem wfList_iff_preorder : ∀ l : List XbelItem,
    wfList l = true ↔ ∀ j ∈ preorderList l, (parseU64 j.getId).isSome = true
  | [] => by simp [wfList, preorderList]
  | i :: r => by
    rw [wfList, preorderList]
    simp only [Bool.and_eq_true, List.mem_append]
    rw [wfItem_iff_preorder i, wfList_iff_preorder r]
    constructor
    · rintro ⟨h1, h2⟩ j (hj | hj)
      · exact h1 j hj
      · exact h2 j hj
    · intro h
      exact ⟨fun j hj => h j (Or.inl hj), fun j hj => h j (Or.inr hj)⟩
end

/-- On a well-formed tree, `get_highest_id` returns the recursive maximum id
without panicking. -/
theorem getHighestId_wf (x : Xbel) (hwf : wfList x.items = true) :
    getHighestId x = .ok (maxList x.items) := by
  rw [getHighestId, xbelFlatSeq, flatSeq_eq_preorderList]
  rw [foldHighest_wf _ ((wfList_iff_preorder x.items).mp hwf)]
  rw [foldl_max_preorderList x.items 0]
  simp

/- ### Locations: paths of child indices into the tree -/

/-- Dereferences a path of child indices to the sibling list it denotes:
`[]` is the root list, `i :: p` descends into the folder at index `i`. -/
def itemsAtList (p : List Nat) (l : List XbelItem) : Option (List XbelItem) :=
  match p with
  | [] => some l
  | i :: rest =>
    match l.get? i with
    | some (.Folder _ _ sub) => itemsAtList rest sub
    | _ => none

/-- Rewrites the item at index `i` of a list through `f` (used to write
through a modelled `&amp;mut` borrow). -/
def modifyNth (l : List XbelItem) (i : Nat) (f : XbelItem → Option XbelItem) :
    Option (List XbelItem) :=
  match l, i with
  | [], _ => none
  | hd :: tl, 0 => (f hd).map (· :: tl)
  | hd :: tl, n + 1 => (modifyNth tl n f).map (hd :: ·)

/-- Applies `g` to the sibling list denoted by path `p`, rebuilding the tree
around it; fails only on an invalid path. -/
def modifyAtList (p : List Nat) (g : List XbelItem → List XbelItem) (l : List XbelItem) :
    Option (List XbelItem) :=
  match p with
  | [] => some (g l)
  | i :: rest =>
    modifyNth l i fun it =>
      match it with
      | .Folder id t sub => (modifyAtList rest g sub).map (.Folder id t ·)
      | .Bookmark _ _ _ => none

/-- Model of `Vec::insert(i, b)`: inserts `b` so that it lands at index `i`.
All call sites in the modelled operations have `i ≤ l.length`, the Rust
bounds-check precondition. -/
def insertAt (l : List XbelItem) (i : Nat) (b : XbelItem) : List XbelItem :=
  match i, l with
  | 0, l => b :: l
  | _ + 1, [] => []
  | i + 1, hd :: tl => hd :: insertAt tl i b

/-- Model of `Vec::remove(i)`: removes the item at index `i`.  All call sites
in the modelled operations have `i < l.length`. -/
def removeAt (l : List XbelItem) (i : Nat) : List XbelItem :=
  match i, l with
  | _, [] => []
  | 0, _ :: tl => tl
  | i + 1, hd :: tl => hd :: removeAt tl i

/- ### Breadth-first resolution (`Xbel::get_items_mut`) -/

/-- One queue entry: a modelled `&amp;mut Vec&lt;XbelItem&gt;`, i.e. the path
identifying a sibling list inside the tree together with its current value. -/
abbrev QEntry := List Nat × List XbelItem

/-- The child sibling-lists enqueued from a popped list (`for item in items`:
every folder contributes its `items`, in encounter order).  `k` is the index
of the first element of `l` within the popped list. -/
def childEntries (p : List Nat) : List XbelItem → Nat → List QEntry
  | [], _ => []
  | .Folder _ _ sub :: tl, k => (p ++ [k], sub) :: childEntries p tl (k + 1)
  | .Bookmark _ _ _ :: tl, k => childEntries p tl (k + 1)

theorem childEntries_measure (l : List XbelItem) :
    ∀ (p : List Nat) (k : Nat),
      ((childEntries p l k).map fun e => 1 + cfList e.2).sum = cfList l := by
  induction l with
  | nil => intro p k; simp [childEntries, cfList]
  | cons i tl ih =>
    intro p k
    cases i with
    | Folder id t sub => simp [childEntries, cfList, cfItem, ih]
    | Bookmark h id t => simp [childEntries, cfList, cfItem, ih]

/-- Measure of a BFS queue: each entry counts one plus its folder count. -/
def qMeasure (q : List QEntry) : Nat :=
  (q.map fun e => 1 + cfList e.2).sum

theorem qMeasure_append (a b : List QEntry) :
    qMeasure (a ++ b) = qMeasure a + qMeasure b := by
  simp [qMeasure]

theorem qMeasure_child (p : List Nat) (l : List XbelItem) (k : Nat) :
    qMeasure (childEntries p l k) = cfList l := by
  rw [qMeasure, childEntries_measure]

theorem qMeasure_cons (e : QEntry) (q : List QEntry) :
    qMeasure (e :: q) = 1 + cfList e.2 + qMeasure q := by
  simp [qMeasure]

/-- The `find_map` of the Id arm of `get_items_mut`: scans a sibling list
left to right, parsing each id with `unwrap` (panic on failure) until the
first item whose id equals `tid`. -/
def findMapId (tid : Nat) : List XbelItem → Nat → Except PanicAbort (Option Nat)
  | [], _ => .ok none
  | i :: rest, k =>
    match parseU64 i.getId with
    | none => .error .panicked
    | some n => if n = tid then .ok (some k) else findMapId tid rest (k + 1)

/-- The BFS loop of the `XbelPath::Id` arm of `get_items_mut`: pop a sibling
list, scan it for the id, return `(index, list)` on a match, otherwise append
every folder's child list and continue. -/
def bfsId (tid : Nat) : List QEntry → Except PanicAbort (Option (Nat × List Nat))
  | [] => .ok none
  | (p, items) :: rest =>
    match findMapId tid items 0 with
    | .error e => .error e
    | .ok (some i) => .ok (some (i, p))
    | .ok none => bfsId tid (rest ++ childEntries p items 0)
termination_by q => qMeasure q
decreasing_by
  simp only [qMeasure_append, qMeasure_child, qMeasure_cons]
  omega

/-- The `find_map` of the `XbelPath::Path` arm: first item of the sibling
list whose title text equals the segment (no id parsing, no panic). -/
def findTitleIdx (seg : String) : List XbelItem → Nat → Option Nat
  | [], _ => none
  | i :: rest, k =>
    if (XbelItem.getTitle i).text = seg then some k else findTitleIdx seg rest (k + 1)

/-- The BFS loop of the `XbelPath::Path` arm of `get_items_mut`: a single
breadth-first traversal with a segment cursor `c`.  A match on the last
segment returns; a match on an earlier segment advances the cursor; in either
case every folder's child list of the popped list is appended. -/
def bfsPath (segs : List String) : Nat → List QEntry → Option (Nat × List Nat)
  | _, [] => none
  | c, (p, items) :: rest =>
    match findTitleIdx (segs.getD c "") items 0 with
    | some i =>
      if c = segs.length - 1 then some (i, p)
      else bfsPath segs (c + 1) (rest ++ childEntries p items 0)
    | none => bfsPath segs c (rest ++ childEntries p items 0)
termination_by c q => qMeasure q
decreasing_by
  all_goals simp only [qMeasure_append, qMeasure_child, qMeasure_cons]
  all_goals omega

/-- Model of Rust `str::split(\'/\')` collected to a vector: every occurrence
of the separator splits, empty segments are kept, and the empty string yields
one empty segment.  The result is never empty. -/
def splitSlash : List Char → List String
  | [] => [""]
  | c :: rest =>
    if c = '/' then "" :: splitSlash rest
    else
      match splitSlash rest with
      | [] => [String.mk [c]]
      | s1 :: ss => String.mk (c :: s1.data) :: ss

theorem splitSlash_length_pos (l : List Char) : 0 < (splitSlash l).length := by
  induction l with
  | nil => simp [splitSlash]
  | cons c rest ih =>
    rw [splitSlash]
    by_cases hc : c = '/'
    · simp [hc]
    · simp only [hc, if_false]
      cases splitSlash rest <;> simp

/-- `Xbel::get_items_mut`.  The returned pair is the index of the located
item and the path of the sibling list holding it (dereference the path with
`itemsAtList` to recover the `&amp;mut Vec&lt;XbelItem&gt;` contents). -/
def getItemsMut (x : Xbel) : XbelPath → Except PanicAbort (Option (Nat × List Nat))
  | .Root => .ok (some (0, []))
  | .Id tid => bfsId tid [([], x.items)]
  | .Path s => .ok (bfsPath (splitSlash s.data) 0 [([], x.items)])

/- ### Level-order specification of the Id search -/

/-- The next BFS level: the child sibling-lists of every entry, in encounter
order.  This is the specification-side notion of "level by level". -/
def nextLevel (q : List QEntry) : List QEntry :=
  (q.map fun e => childEntries e.1 e.2 0).flatten

theorem nextLevel_nil : nextLevel [] = [] := rfl

theorem nextLevel_cons (e : QEntry) (q : List QEntry) :
    nextLevel (e :: q) = childEntries e.1 e.2 0 ++ nextLevel q := by
  simp [nextLevel]

theorem nextLevel_append (a b : List QEntry) :
    nextLevel (a ++ b) = nextLevel a ++ nextLevel b := by
  simp [nextLevel]

theorem qMeasure_nextLevel (q : List QEntry) :
    qMeasure (nextLevel q) + q.length = qMeasure q := by
  induction q with
  | nil => simp [nextLevel, qMeasure]
  | cons e rest ih =>
    rw [nextLevel_cons, qMeasure_append, qMeasure_child, qMeasure_cons]
    simp only [List.length_cons]
    omega

/-- All sibling lists of the tree in breadth-first order: the current level
followed by all deeper levels. -/
def flatLevels : List QEntry → List QEntry
  | [] => []
  | e :: rest => (e :: rest) ++ flatLevels (nextLevel (e :: rest))
termination_by q => qMeasure q
decreasing_by
  have h := qMeasure_nextLevel (e :: rest)
  simp only [List.length_cons] at h
  omega

theorem flatLevels_nonempty (e : QEntry) (rest : List QEntry) :
    flatLevels (e :: rest) = (e :: rest) ++ flatLevels (nextLevel (e :: rest)) := by
  simp [flatLevels]

theorem flatLevels_nil : flatLevels [] = [] := by
  simp [flatLevels]

theorem flatLevels_eq (q : List QEntry) :
    flatLevels q = q ++ flatLevels (nextLevel q) := by
  cases q with
  | nil => rw [flatLevels_nil, nextLevel_nil, flatLevels_nil]; rfl
  | cons e rest => exact flatLevels_nonempty e rest

/-- Key shift lemma: breadth-first enumeration from a split queue `a ++ b`
agrees with enumerating `a` now and postponing `a`'s children after `b`.
This is what makes the FIFO queue traversal produce level order. -/
theorem flatLevels_shift : ∀ (a b : List QEntry),
    flatLevels (a ++ b) = a ++ flatLevels (b ++ nextLevel a)
  | [], b => by simp [nextLevel_nil]
  | e :: a, b => by
    rw [List.cons_append, flatLevels_nonempty e (a ++ b)]
    rw [flatLevels_eq (b ++ nextLevel (e :: a))]
    have hnl2 : nextLevel (e :: (a ++ b)) = nextLevel (e :: a) ++ nextLevel b := by
      rw [show e :: (a ++ b) = (e :: a) ++ b from rfl, nextLevel_append]
    rw [hnl2]
    rw [flatLevels_shift (nextLevel (e :: a)) (nextLevel b)]
    rw [nextLevel_append]
    simp [List.append_assoc]
termination_by a b => qMeasure (a ++ b)
decreasing_by
  have h1 := qMeasure_nextLevel (e :: a)
  have h2 := qMeasure_nextLevel b
  simp only [qMeasure_append, qMeasure_cons, List.length_cons] at h1 h2 ⊢
  omega

/-- Specification-side scan of one sibling list: index of the first item
whose parsed id equals `tid` (no panic modelling; used under well-formedness). -/
def findIdIdx (tid : Nat) : List XbelItem → Nat → Option Nat
  | [], _ => none
  | i :: rest, k =>
    match parseU64 i.getId with
    | some n => if n = tid then some k else findIdIdx tid rest (k + 1)
    | none => findIdIdx tid rest (k + 1)

/-- Specification-side search: first entry, in the given order, whose list
contains an item with id `tid`; returns that item's index and the entry path. -/
def searchEntriesId (tid : Nat) : List QEntry → Option (Nat × List Nat)
  | [] => none
  | (p, l) :: rest =>
    match findIdIdx tid l 0 with
    | some i => some (i, p)
    | none => searchEntriesId tid rest

/-- The level-by-level specification of `XbelPath::Id` resolution. -/
def resolveIdSpec (x : Xbel) (tid : Nat) : Option (Nat × List Nat) :=
  searchEntriesId tid (flatLevels [([], x.items)])

/- ### Well-formed queues and the implementation/spec agreement -/

theorem wfItem_id (i : XbelItem) (h : wfItem i = true) : (parseU64 i.getId).isSome = true := by
  cases i with
  | Folder id t its =>
    rw [wfItem] at h
    simp only [Bool.and_eq_true] at h
    simpa [XbelItem.getId] using h.1
  | Bookmark h2 id t =>
    rw [wfItem] at h
    simpa [XbelItem.getId] using h

theorem wfList_head (i : XbelItem) (r : List XbelItem) (h : wfList (i :: r) = true) :
    wfItem i = true := by
  rw [wfList] at h
  simp only [Bool.and_eq_true] at h
  exact h.1

theorem wfList_tail (i : XbelItem) (r : List XbelItem) (h : wfList (i :: r) = true) :
    wfList r = true := by
  rw [wfList] at h
  simp only [Bool.and_eq_true] at h
  exact h.2

theorem wf_childEntries (l : List XbelItem) :
    ∀ (p : List Nat) (k : Nat), wfList l = true →
      ∀ e ∈ childEntries p l k, wfList e.2 = true := by
  induction l with
  | nil => intro p k _ e he; simp [childEntries] at he
  | cons i tl ih =>
    intro p k hwf e he
    cases i with
    | Folder id t sub =>
      rw [childEntries] at he
      rcases List.mem_cons.mp he with he | he
      · subst he
        have hh := wfList_head _ _ hwf
        rw [wfItem] at hh
        simp only [Bool.and_eq_true] at hh
        exact hh.2
      · exact ih p (k + 1) (wfList_tail _ _ hwf) e he
    | Bookmark h id t =>
      rw [childEntries] at he
      exact ih p (k + 1) (wfList_tail _ _ hwf) e he

theorem findMapId_eq_findIdIdx (tid : Nat) :
    ∀ (l : List XbelItem) (k : Nat), wfList l = true →
      findMapId tid l k = .ok (findIdIdx tid l k)
  | [], _, _ => rfl
  | i :: rest, k, hwf => by
    have hsome := wfItem_id i (wfList_head _ _ hwf)
    cases hp : parseU64 i.getId with
    | none => rw [hp] at hsome; simp at hsome
    | some n =>
      simp only [findMapId, findIdIdx, hp]
      by_cases hn : n = tid
      · simp [hn]
      · simp only [hn, if_false]
        exact findMapId_eq_findIdIdx tid rest (k + 1) (wfList_tail _ _ hwf)

/-- The queue implementation of the Id search agrees with the level-order
specification on well-formed queues. -/
theorem bfsId_eq_spec (tid : Nat) :
    ∀ q : List QEntry, (∀ e ∈ q, wfList e.2 = true) →
      bfsId tid q = .ok (searchEntriesId tid (flatLevels q))
  | [], _ => by
    rw [flatLevels_nil]
    simp [bfsId, searchEntriesId]
  | (p, l) :: rest, hwf => by
    have hl : wfList l = true := hwf (p, l) (List.mem_cons_self _ _)
    rw [flatLevels_nonempty]
    simp only [bfsId]
    rw [findMapId_eq_findIdIdx tid l 0 hl]
    cases hf : findIdIdx tid l 0 with
    | some i =>
      simp [searchEntriesId, hf]
    | none =>
      simp only [searchEntriesId, hf, List.cons_append]
      have hwf2 : ∀ e ∈ rest ++ childEntries p l 0, wfList e.2 = true := by
        intro e he
        rcases List.mem_append.mp he with he | he
        · exact hwf e (List.mem_cons_of_mem _ he)
        · exact wf_childEntries l p 0 hl e he
      rw [bfsId_eq_spec tid (rest ++ childEntries p l 0) hwf2]
      rw [flatLevels_shift rest (childEntries p l 0)]
      rw [nextLevel_cons]
      rfl
termination_by q => qMeasure q
decreasing_by
  simp only [qMeasure_append, qMeasure_child, qMeasure_cons]
  omega

/- ### Containment of an id in a subtree, and search completeness -/

/-- Whether an item's own parsed id equals `tid`. -/
def idHit (tid : Nat) (i : XbelItem) : Bool :=
  match parseU64 i.getId with
  | some n => n == tid
  | none => false

/-- Whether some item of the list (not descending) has id `tid`. -/
def topHit (tid : Nat) (l : List XbelItem) : Bool :=
  l.any (idHit tid)

mutual
/-- Whether the subtree rooted at an item contains an item with id `tid`. -/
def containsIdItem (tid : Nat) : XbelItem → Bool
  | .Bookmark h id t => idHit tid (.Bookmark h id t)
  | .Folder id t its => idHit tid (.Folder id t its) || containsIdList tid its
/-- Whether a forest contains an item with id `tid`. -/
def containsIdList (tid : Nat) : List XbelItem → Bool
  | [] => false
  | i :: r => containsIdItem tid i || containsIdList tid r
end

theorem idHit_iff (tid : Nat) (i : XbelItem) :
    idHit tid i = true ↔ parseU64 i.getId = some tid := by
  rw [idHit]
  cases hp : parseU64 i.getId with
  | none => simp
  | some n => simp [Nat.beq_eq_true_eq]

theorem findIdIdx_none_iff (tid : Nat) :
    ∀ (l : List XbelItem) (k : Nat), findIdIdx tid l k = none ↔ topHit tid l = false
  | [], k => by simp [findIdIdx, topHit]
  | i :: rest, k => by
    rw [findIdIdx, topHit, List.any_cons]
    cases hp : parseU64 i.getId with
    | none =>
      have hhit : idHit tid i = false := by
        rw [idHit, hp]
      rw [hhit]
      simp only [Bool.false_or]
      exact findIdIdx_none_iff tid rest (k + 1)
    | some n =>
      by_cases hn : n = tid
      · have hhit : idHit tid i = true := (idHit_iff tid i).mpr (hn ▸ hp)
        simp [hn, hhit]
      · have hhit : idHit tid i = false := by
          rw [idHit, hp]
          simp [hn]
        simp only [hn, if_false, hhit, Bool.false_or]
        exact findIdIdx_none_iff tid rest (k + 1)

theorem containsIdList_decomp (tid : Nat) (l : List XbelItem) :
    ∀ (p : List Nat) (k : Nat),
      containsIdList tid l =
        (topHit tid l || (childEntries p l k).any fun e => containsIdList tid e.2) := by
  induction l with
  | nil => intro p k; simp [containsIdList, topHit, childEntries]
  | cons i tl ih =>
    intro p k
    cases i with
    | Folder id t sub =>
      rw [containsIdList, containsIdItem, topHit, List.any_cons, childEntries, List.any_cons]
      rw [ih p (k + 1)]
      rw [topHit]
      cases idHit tid (XbelItem.Folder id t sub) <;>
        cases containsIdList tid sub <;>
          simp [Bool.or_comm, Bool.or_left_comm]
    | Bookmark h id t =>
      rw [containsIdList, containsIdItem, topHit, List.any_cons, childEntries]
      rw [ih p (k + 1)]
      rw [topHit]
      cases idHit tid (XbelItem.Bookmark h id t) <;> simp [Bool.or_assoc]

theorem searchEntriesId_none_iff (tid : Nat) :
    ∀ q : List QEntry, searchEntriesId tid q = none ↔ ∀ e ∈ q, topHit tid e.2 = false
  | [] => by simp [searchEntriesId]
  | (p, l) :: rest => by
    rw [searchEntriesId]
    cases hf : findIdIdx tid l 0 with
    | some i =>
      simp only []
      constructor
      · intro h; exact absurd h (by simp)
      · intro h
        have := h (p, l) (List.mem_cons_self _ _)
        rw [← findIdIdx_none_iff tid l 0] at this
        rw [hf] at this
        simp at this
    | none =>
      simp only []
      rw [searchEntriesId_none_iff tid rest]
      constructor
      · intro h e he
        rcases List.mem_cons.mp he with he | he
        · subst he
          exact (findIdIdx_none_iff tid l 0).mp hf
        · exact h e he
      · intro h e he
        exact h e (List.mem_cons_of_mem _ he)

theorem mem_nextLevel (c : QEntry) (q : List QEntry) :
    c ∈ nextLevel q ↔ ∃ x ∈ q, c ∈ childEntries x.1 x.2 0 := by
  simp only [nextLevel, List.mem_flatten, List.mem_map]
  constructor
  · rintro ⟨l, ⟨x, hx, rfl⟩, hc⟩
    exact ⟨x, hx, hc⟩
  · rintro ⟨x, hx, hc⟩
    exact ⟨childEntries x.1 x.2 0, ⟨x, hx, rfl⟩, hc⟩

/-- Breadth-first completeness: every id reachable in the forests of the
queue entries is seen at some level, and conversely. -/
theorem flatLevels_topHit_iff (tid : Nat) :
    ∀ q : List QEntry,
      (∀ e ∈ flatLevels q, topHit tid e.2 = false) ↔
        (∀ e ∈ q, containsIdList tid e.2 = false)
  | [] => by rw [flatLevels_nil]; simp
  | x :: rest => by
    rw [flatLevels_nonempty]
    constructor
    · intro h e he
      rw [containsIdList_decomp tid e.2 e.1 0]
      have htop : topHit tid e.2 = false :=
        h e (List.mem_append.mpr (Or.inl he))
      have hch : ∀ c ∈ childEntries e.1 e.2 0, containsIdList tid c.2 = false := by
        have hih := (flatLevels_topHit_iff tid (nextLevel (x :: rest))).mp
          (fun y hy => h y (List.mem_append.mpr (Or.inr hy)))
        intro c hc
        exact hih c ((mem_nextLevel c _).mpr ⟨e, he, hc⟩)
      rw [htop]
      simp only [Bool.false_or]
      rw [List.any_eq_false]
      simpa using hch
    · intro h e he
      rcases List.mem_append.mp he with he | he
      · have hc := h e he
        rw [containsIdList_decomp tid e.2 e.1 0] at hc
        exact (Bool.or_eq_false_iff.mp hc).1
      · refine (flatLevels_topHit_iff tid (nextLevel (x :: rest))).mpr ?_ e he
        intro c hc
        rcases (mem_nextLevel c _).mp hc with ⟨y, hy, hcy⟩
        have hcy2 := h y hy
        rw [containsIdList_decomp tid y.2 y.1 0] at hcy2
        have hany := (Bool.or_eq_false_iff.mp hcy2).2
        rw [List.any_eq_false] at hany
        have := hany c hcy
        simpa using this
termination_by q => qMeasure q
decreasing_by
  all_goals
    have h := qMeasure_nextLevel (x :: rest)
    simp only [List.length_cons] at h
    omega

mutual
theorem containsIdItem_iff (tid : Nat) : ∀ i : XbelItem,
    containsIdItem tid i = true ↔ ∃ j ∈ preorderItem i, parseU64 j.getId = some tid
  | .Bookmark h id t => by
    rw [containsIdItem, preorderItem, idHit_iff]
    simp
  | .Folder id t its => by
    rw [containsIdItem, preorderItem]
    rw [Bool.or_eq_true, idHit_iff, containsIdList_iff tid its]
    simp
theorem containsIdList_iff (tid : Nat) : ∀ l : List XbelItem,
    containsIdList tid l = true ↔ ∃ j ∈ preorderList l, parseU64 j.getId = some tid
  | [] => by simp [containsIdList, preorderList]
  | i :: r => by
    rw [containsIdList, preorderList]
    rw [Bool.or_eq_true, containsIdItem_iff tid i, containsIdList_iff tid r]
    constructor
    · rintro (⟨j, hj, hp⟩ | ⟨j, hj, hp⟩)
      · exact ⟨j, List.mem_append.mpr (Or.inl hj), hp⟩
      · exact ⟨j, List.mem_append.mpr (Or.inr hj), hp⟩
    · rintro ⟨j, hj, hp⟩
      rcases List.mem_append.mp hj with hj | hj
      · exact Or.inl ⟨j, hj, hp⟩
      · exact Or.inr ⟨j, hj, hp⟩
end

/-- The level-order specification finds nothing exactly when no item of the
tree carries the searched id. -/
theorem resolveIdSpec_none_iff (x : Xbel) (tid : Nat) :
    resolveIdSpec x tid = none ↔
      ∀ j ∈ preorderList x.items, parseU64 j.getId ≠ some tid := by
  rw [resolveIdSpec, searchEntriesId_none_iff]
  rw [flatLevels_topHit_iff]
  constructor
  · intro h j hj hp
    have := h ([], x.items) (List.mem_cons_self _ _)
    rw [← Bool.not_eq_true, containsIdList_iff] at this
    exact this ⟨j, hj, hp⟩
  · intro h e he
    rcases List.mem_cons.mp he with he | he
    · subst he
      rw [← Bool.not_eq_true, containsIdList_iff]
      rintro ⟨j, hj, hp⟩
      exact h j hj hp
    · simp at he

/- ### Characterizing successful resolutions -/

theorem findMapId_ok_some (tid : Nat) : ∀ (l : List XbelItem) (k i : Nat),
    findMapId tid l k = .ok (some i) →
      k ≤ i ∧ i - k < l.length ∧ ∃ it, l.get? (i - k) = some it ∧ parseU64 it.getId = some tid
  | [], k, i => by simp [findMapId]
  | it0 :: rest, k, i => by
    rw [findMapId]
    cases hp : parseU64 it0.getId with
    | none => simp
    | some n =>
      by_cases hn : n = tid
      · simp only [hn, if_true]
        intro h
        have hik : i = k := by
          have := h
          simp at this
          omega
        subst hik
        refine ⟨Nat.le_refl _, by simp, it0, ?_, hn ▸ hp⟩
        simp
      · simp only [hn, if_false]
        intro h
        have hrec := findMapId_ok_some tid rest (k + 1) i h
        refine ⟨by omega, by simp; omega, ?_⟩
        rcases hrec with ⟨hk, hlen, it2, hget, hpid⟩
        refine ⟨it2, ?_, hpid⟩
        have hik : i - k = (i - (k + 1)) + 1 := by omega
        rw [hik]
        simpa using hget

theorem findTitleIdx_some (seg : String) : ∀ (l : List XbelItem) (k i : Nat),
    findTitleIdx seg l k = some i →
      k ≤ i ∧ i - k < l.length ∧
        (∃ it, l.get? (i - k) = some it ∧ (XbelItem.getTitle it).text = seg) ∧
        ∀ j < i - k, ∀ it2, l.get? j = some it2 → (XbelItem.getTitle it2).text ≠ seg
  | [], k, i => by simp [findTitleIdx]
  | it0 :: rest, k, i => by
    rw [findTitleIdx]
    by_cases ht : (XbelItem.getTitle it0).text = seg
    · simp only [ht, if_true]
      intro h
      have hik : i = k := by simp at h; omega
      subst hik
      refine ⟨Nat.le_refl _, by simp, ⟨it0, by simp, ht⟩, ?_⟩
      intro j hj
      omega
    · simp only [ht, if_false]
      intro h
      have hrec := findTitleIdx_some seg rest (k + 1) i h
      rcases hrec with ⟨hk, hlen, ⟨it2, hget, htit⟩, hmin⟩
      have hik : i - k = (i - (k + 1)) + 1 := by omega
      refine ⟨by omega, by simp; omega, ⟨it2, ?_, htit⟩, ?_⟩
      · rw [hik]; simpa using hget
      · intro j hj it3 hget3
        cases j with
        | zero =>
          simp at hget3
          subst hget3
          exact ht
        | succ j2 =>
          apply hmin j2 (by omega)
          simpa using hget3

theorem childEntries_mem (l : List XbelItem) :
    ∀ (p : List Nat) (k : Nat) (e : QEntry), e ∈ childEntries p l k →
      ∃ j id t, e.1 = p ++ [k + j] ∧ l.get? j = some (.Folder id t e.2)
  | p, k, e => by
    induction l generalizing k with
    | nil => intro h; simp [childEntries] at h
    | cons i tl ih =>
      intro h
      cases i with
      | Folder id t sub =>
        rw [childEntries] at h
        rcases List.mem_cons.mp h with h | h
        · refine ⟨0, id, t, ?_, ?_⟩
          · rw [h]; simp
          · rw [h]; simp
        · rcases ih (k + 1) h with ⟨j, id2, t2, he1, hget⟩
          refine ⟨j + 1, id2, t2, ?_, by simpa using hget⟩
          rw [he1]
          simp
          omega
      | Bookmark hr id t =>
        rw [childEntries] at h
        rcases ih (k + 1) h with ⟨j, id2, t2, he1, hget⟩
        refine ⟨j + 1, id2, t2, ?_, by simpa using hget⟩
        rw [he1]
        simp
        omega

theorem itemsAtList_snoc (j : Nat) (id : String) (t : Title) (sub : List XbelItem) :
    ∀ (p : List Nat) (root l : List XbelItem), itemsAtList p root = some l →
      l.get? j = some (.Folder id t sub) → itemsAtList (p ++ [j]) root = some sub
  | [], root, l, hp, hg => by
    rw [itemsAtList] at hp
    injection hp with hp
    subst hp
    rw [List.nil_append, itemsAtList, hg]
    rfl
  | i :: rest, root, l, hp, hg => by
    rw [itemsAtList] at hp
    rw [List.cons_append, itemsAtList]
    cases hri : root.get? i with
    | none => rw [hri] at hp; simp at hp
    | some it =>
      rw [hri] at hp
      cases it with
      | Folder id2 t2 sub2 => exact itemsAtList_snoc j id t sub rest sub2 l hp hg
      | Bookmark h2 id2 t2 => simp at hp

theorem qConsistent_child (root l : List XbelItem) (p : List Nat)
    (hp : itemsAtList p root = some l) :
    ∀ e ∈ childEntries p l 0, itemsAtList e.1 root = some e.2 := by
  intro e he
  rcases childEntries_mem l p 0 e he with ⟨j, id, t, he1, hget⟩
  rw [he1]
  simpa using itemsAtList_snoc j id t e.2 p root l hp (by simpa using hget)

/-- Any location returned by the Id search is a genuine location in the tree:
the path dereferences, the index is in bounds, and the item there has the
searched id. -/
theorem bfsId_ok_char (tid : Nat) (root : List XbelItem) :
    ∀ q : List QEntry, (∀ e ∈ q, itemsAtList e.1 root = some e.2) →
      ∀ i p, bfsId tid q = .ok (some (i, p)) →
        ∃ l, itemsAtList p root = some l ∧ i < l.length ∧
          ∃ it, l.get? i = some it ∧ parseU64 it.getId = some tid
  | [], _, i, p => by simp [bfsId]
  | (p0, l0) :: rest, hcons, i, p => by
    simp only [bfsId]
    cases hf : findMapId tid l0 0 with
    | error e => simp
    | ok r =>
      cases r with
      | some i0 =>
        intro h
        simp only [] at h
        have hip : i = i0 ∧ p = p0 := by
          constructor <;> { injection h with h2; injection h2 with h3; cases h3; rfl }
        rcases hip with ⟨hi, hp⟩
        subst hi; subst hp
        rcases findMapId_ok_some tid l0 0 i hf with ⟨_, hlen, it, hget, hpid⟩
        refine ⟨l0, hcons (p, l0) (List.mem_cons_self _ _), by simpa using hlen, it, by simpa using hget, hpid⟩
      | none =>
        intro h
        have hcons2 : ∀ e ∈ rest ++ childEntries p0 l0 0, itemsAtList e.1 root = some e.2 := by
          intro e he
          rcases List.mem_append.mp he with he | he
          · exact hcons e (List.mem_cons_of_mem _ he)
          · exact qConsistent_child root l0 p0 (hcons (p0, l0) (List.mem_cons_self _ _)) e he
        exact bfsId_ok_char tid root (rest ++ childEntries p0 l0 0) hcons2 i p h
termination_by q => qMeasure q
decreasing_by
  simp only [qMeasure_append, qMeasure_child, qMeasure_cons]
  omega

/-- The last segment of a split path. -/
def lastSeg (segs : List String) : String :=
  segs.getD (segs.length - 1) ""

/-- Any location returned by the Path search points at the first item of its
sibling list whose title is the last path segment. -/
theorem bfsPath_some_char (segs : List String) (root : List XbelItem) :
    ∀ (c : Nat) (q : List QEntry), (∀ e ∈ q, itemsAtList e.1 root = some e.2) →
      c < segs.length →
      ∀ i p, bfsPath segs c q = some (i, p) →
        ∃ l, itemsAtList p root = some l ∧ i < l.length ∧
          (∃ it, l.get? i = some it ∧ (XbelItem.getTitle it).text = lastSeg segs) ∧
          ∀ j < i, ∀ it2, l.get? j = some it2 → (XbelItem.getTitle it2).text ≠ lastSeg segs
  | c, [], _, _, i, p => by simp [bfsPath]
  | c, (p0, l0) :: rest, hcons, hc, i, p => by
    simp only [bfsPath]
    cases hf : findTitleIdx (segs.getD c "") l0 0 with
    | some i0 =>
      by_cases hlast : c = segs.length - 1
      · simp only [hlast, if_true]
        intro h
        have hip : i = i0 ∧ p = p0 := by
          constructor <;> { injection h with h2; cases h2; rfl }
        rcases hip with ⟨hi, hp⟩
        subst hi; subst hp
        rcases findTitleIdx_some _ l0 0 i hf with ⟨_, hlen, ⟨it, hget, htit⟩, hmin⟩
        have hseg : segs.getD c "" = lastSeg segs := by rw [hlast]; rfl
        refine ⟨l0, hcons (p, l0) (List.mem_cons_self _ _), by simpa using hlen,
          ⟨it, by simpa using hget, hseg ▸ htit⟩, ?_⟩
        intro j hj it2 hget2
        have := hmin j (by omega) it2 hget2
        rw [← hseg]
        exact this
      · simp only [hlast, if_false]
        intro h
        have hcons2 : ∀ e ∈ rest ++ childEntries p0 l0 0, itemsAtList e.1 root = some e.2 := by
          intro e he
          rcases List.mem_append.mp he with he | he
          · exact hcons e (List.mem_cons_of_mem _ he)
          · exact qConsistent_child root l0 p0 (hcons (p0, l0) (List.mem_cons_self _ _)) e he
        have hc2 : c + 1 < segs.length := by omega
        exact bfsPath_some_char segs root (c + 1) (rest ++ childEntries p0 l0 0) hcons2 hc2 i p h
    | none =>
      intro h
      have hcons2 : ∀ e ∈ rest ++ childEntries p0 l0 0, itemsAtList e.1 root = some e.2 := by
        intro e he
        rcases List.mem_append.mp he with he | he
        · exact hcons e (List.mem_cons_of_mem _ he)
        · exact qConsistent_child root l0 p0 (hcons (p0, l0) (List.mem_cons_self _ _)) e he
      exact bfsPath_some_char segs root c (rest ++ childEntries p0 l0 0) hcons2 hc i p h
termination_by c q => qMeasure q
decreasing_by
  all_goals simp only [qMeasure_append, qMeasure_child, qMeasure_cons]
  all_goals omega

/- ### Transporting maximum-id and well-formedness through mutation -/

theorem wfList_mem (l : List XbelItem) (hl : wfList l = true) :
    ∀ it ∈ l, wfItem it = true := by
  induction l with
  | nil => intro it h; simp at h
  | cons i r ih =>
    intro it h
    rcases List.mem_cons.mp h with h | h
    · subst h; exact wfList_head _ _ hl
    · exact ih (wfList_tail _ _ hl) it h

theorem modifyNth_both (f : XbelItem → Option XbelItem) (K : Nat) :
    ∀ (root : List XbelItem) (i : Nat) (it it2 : XbelItem),
      root.get? i = some it → f it = some it2 →
      maxItem it2 = max K (maxItem it) →
      (wfItem it = true → wfItem it2 = true) →
      ∃ root2, modifyNth root i f = some root2 ∧
        maxList root2 = max K (maxList root) ∧
        (wfList root = true → wfList root2 = true)
  | [], i, it, it2 => by simp
  | hd :: tl, 0, it, it2 => by
    intro hget hf hmax hwf
    have hhd : hd = it := by simpa using hget
    subst hhd
    refine ⟨it2 :: tl, ?_, ?_, ?_⟩
    · rw [modifyNth, hf]; rfl
    · rw [maxList, maxList, hmax]
      omega
    · intro hw
      rw [wfList]
      simp only [Bool.and_eq_true]
      exact ⟨hwf (wfList_head _ _ hw), wfList_tail _ _ hw⟩
  | hd :: tl, n + 1, it, it2 => by
    intro hget hf hmax hwf
    have hget2 : tl.get? n = some it := by simpa using hget
    rcases modifyNth_both f K tl n it it2 hget2 hf hmax hwf with ⟨tl2, hm, hmax2, hwf2⟩
    refine ⟨hd :: tl2, ?_, ?_, ?_⟩
    · rw [modifyNth, hm]; rfl
    · rw [maxList, maxList, hmax2]
      omega
    · intro hw
      rw [wfList]
      simp only [Bool.and_eq_true]
      exact ⟨wfList_head _ _ hw, hwf2 (wfList_tail _ _ hw)⟩

theorem modifyAt_both (g : List XbelItem → List XbelItem) (K : Nat) :
    ∀ (p : List Nat) (root l : List XbelItem),
      itemsAtList p root = some l →
      maxList (g l) = max K (maxList l) →
      (wfList l = true → wfList (g l) = true) →
      ∃ root2, modifyAtList p g root = some root2 ∧
        maxList root2 = max K (maxList root) ∧
        (wfList root = true → wfList root2 = true)
  | [], root, l => by
    intro hp hmax hwf
    rw [itemsAtList] at hp
    injection hp with hp
    subst hp
    exact ⟨g root, rfl, hmax, hwf⟩
  | i :: rest, root, l => by
    intro hp hmax hwf
    rw [itemsAtList] at hp
    cases hri : root.get? i with
    | none => rw [hri] at hp; simp at hp
    | some it =>
      rw [hri] at hp
      cases it with
      | Bookmark h2 id t => simp at hp
      | Folder id t sub =>
        rcases modifyAt_both g K rest sub l hp hmax hwf with ⟨sub2, hm, hmax2, hwf2⟩
        have hf : (fun it => match it with
            | XbelItem.Folder id t sub => (modifyAtList rest g sub).map (XbelItem.Folder id t ·)
            | XbelItem.Bookmark _ _ _ => none) (XbelItem.Folder id t sub)
            = some (XbelItem.Folder id t sub2) := by
          simp only []
          rw [hm]
          rfl
        have hmaxit : maxItem (XbelItem.Folder id t sub2) = max K (maxItem (XbelItem.Folder id t sub)) := by
          rw [maxItem, maxItem, hmax2]
          have hpid : pid (XbelItem.Folder id t sub2) = pid (XbelItem.Folder id t sub) := by
            simp [pid, XbelItem.getId]
          rw [hpid]
          omega
        have hwfit : wfItem (XbelItem.Folder id t sub) = true → wfItem (XbelItem.Folder id t sub2) = true := by
          intro hw
          rw [wfItem] at hw ⊢
          simp only [Bool.and_eq_true] at hw ⊢
          exact ⟨hw.1, hwf2 hw.2⟩
        rcases modifyNth_both (fun it => match it with
            | XbelItem.Folder id t sub => (modifyAtList rest g sub).map (XbelItem.Folder id t ·)
            | XbelItem.Bookmark _ _ _ => none) K root i (XbelItem.Folder id t sub)
          (XbelItem.Folder id t sub2) hri hf hmaxit hwfit with ⟨root2, hm2, hmax3, hwf3⟩
        exact ⟨root2, by rw [modifyAtList]; exact hm2, hmax3, hwf3⟩

/- ### List insertion and removal lemmas -/

theorem maxList_insertAt (b : XbelItem) :
    ∀ (l : List XbelItem) (i : Nat), i ≤ l.length →
      maxList (insertAt l i b) = max (maxItem b) (maxList l)
  | l, 0, _ => by
    cases l <;> simp [insertAt, maxList]
  | [], i + 1, h => by simp at h
  | hd :: tl, i + 1, h => by
    rw [insertAt, maxList, maxList_insertAt b tl i (by simpa using h), maxList]
    omega

theorem wfList_insertAt (b : XbelItem) :
    ∀ (l : List XbelItem) (i : Nat), i ≤ l.length → wfList l = true → wfItem b = true →
      wfList (insertAt l i b) = true
  | l, 0, _ => by
    intro hl hb
    cases l <;> (rw [insertAt, wfList] ; simp only [Bool.and_eq_true]) <;> exact ⟨hb, hl⟩
  | [], i + 1, h => by simp at h
  | hd :: tl, i + 1, h => by
    intro hl hb
    rw [insertAt, wfList]
    simp only [Bool.and_eq_true]
    exact ⟨wfList_head _ _ hl, wfList_insertAt b tl i (by simpa using h) (wfList_tail _ _ hl) hb⟩

theorem maxList_cons_front (b : XbelItem) (l : List XbelItem) :
    maxList (b :: l) = max (maxItem b) (maxList l) := by
  rw [maxList]

theorem maxList_snoc (l : List XbelItem) (b : XbelItem) :
    maxList (l ++ [b]) = max (maxItem b) (maxList l) := by
  rw [maxList_append]
  simp [maxList]
  omega

theorem wfList_snoc (l : List XbelItem) (b : XbelItem) (hl : wfList l = true)
    (hb : wfItem b = true) : wfList (l ++ [b]) = true := by
  rw [wfList_append]
  simp only [Bool.and_eq_true]
  refine ⟨hl, ?_⟩
  rw [wfList, hb, wfList]
  rfl

/- ### Serialization (`Xbel::to_string` and `write_xbel_item`) -/

/-- XML writer events, as passed to `quick_xml::Writer::write_event`. -/
inductive XEvent where
  | Start (name : String) (attrs : List (String × String))
  | End (name : String)
  | Text (s : String)
  | Comment (s : String)
deriving Repr, DecidableEq

mutual
/-- Events written by `write_xbel_item` for one item: folders emit a start
tag with the id attribute, a title element, their children, then the end tag;
bookmarks emit a start tag with href and id attributes and a title element. -/
def itemEvents : XbelItem → List XEvent
  | .Folder id t its =>
    .Start "folder" [("id", id)] :: .Start "title" [] :: .Text t.text :: .End "title" ::
      (itemsEvents its ++ [.End "folder"])
  | .Bookmark href id t =>
    [.Start "bookmark" [("href", href), ("id", id)], .Start "title" [], .Text t.text,
      .End "title", .End "bookmark"]
/-- Events written for a sequence of items, in order. -/
def itemsEvents : List XbelItem → List XEvent
  | [] => []
  | i :: r => itemEvents i ++ itemsEvents r
end

/-- The comment text written by `Xbel::to_string`: note the leading dash and
space and the trailing space, exactly as in the Rust `format!` call. -/
def commentStr (n : Nat) : String :=
  "- highestId :" ++ natToString n ++ ": for Floccus bookmark sync browser extension "

/-- Modelled from the spec: the serializer delegates byte production to an
external XML writer with 2-space indentation
(`Writer::new_with_indent(Vec::new(), b' ', 2)`).  State: current indentation
level and whether a line break is due before the next tag (no break before
the very first event, none after a text event). -/
structure WriterState where
  level : Nat
  breakBefore : Bool

/-- A run of `n` spaces. -/
def spaces (n : Nat) : String :=
  String.mk (List.replicate n ' ')

/-- Renders an attribute list as written by the XML writer. -/
def renderAttrs : List (String × String) → String
  | [] => ""
  | (k, v) :: rest => " " ++ k ++ "=\"" ++ v ++ "\"" ++ renderAttrs rest

/-- Modelled from the spec: byte output of the external XML writer for a
list of events (escaping of text content is not modelled; the claims proved
against this renderer only depend on the comment block and event order). -/
def renderEvents : WriterState → List XEvent → String
  | _, [] => ""
  | st, .Start name attrs :: rest =>
    (if st.breakBefore then "\n" ++ spaces (2 * st.level) else "") ++
      "<" ++ name ++ renderAttrs attrs ++ ">" ++ renderEvents ⟨st.level + 1, true⟩ rest
  | st, .End name :: rest =>
    (if st.breakBefore then "\n" ++ spaces (2 * (st.level - 1)) else "") ++
      "</" ++ name ++ ">" ++ renderEvents ⟨st.level - 1, true⟩ rest
  | st, .Text s :: rest => s ++ renderEvents ⟨st.level, false⟩ rest
  | st, .Comment s :: rest =>
    (if st.breakBefore then "\n" ++ spaces (2 * st.level) else "") ++
      "<!--" ++ s ++ "-->" ++ renderEvents ⟨st.level, true⟩ rest

/-- The fixed prolog and Floccus DOCTYPE lines (`XML_HEADER` in the source). -/
def xmlHeader : String :=
  "<?xml version=\"1.0\" encoding=\"UTF-8\"?>\n<!DOCTYPE xbel PUBLIC \"+//IDN python.org//DTD XML Bookmark Exchange Language 1.0//EN//XML\" \"http://pyxml.sourceforge.net/topics/dtds/xbel.dtd\">\n"

/-- The fixed root-element opening (`XBEL_START` in the source). -/
def xbelStart : String :=
  "<xbel version=\"1.0\">\n"

/-- The fixed root-element closing (`XBEL_END` in the source). -/
def xbelEnd : String :=
  "\n</xbel>"

/-- The events `Xbel::to_string` writes inside the root element: the
highest-id comment, a blank-line text event, then every item. -/
def innerEvents (x : Xbel) (h : Nat) : List XEvent :=
  .Comment (commentStr h) :: .Text "\n\n" :: itemsEvents x.items

/-- `Xbel::to_string`: recomputes the highest id (panicking on malformed
ids), writes the comment and items through the writer, and wraps the result
in the fixed header, root-open and root-close strings. -/
def xbelToString (x : Xbel) : Except PanicAbort String :=
  (getHighestId x).map fun h =>
    xmlHeader ++ xbelStart ++ renderEvents ⟨0, false⟩ (innerEvents x h) ++ xbelEnd

/-- `Xbel::new_bookmark`: mints a bookmark whose id is the decimal encoding
of the current whole-tree highest id plus one (u64 arithmetic), computed at
the moment of the call. -/
def newBookmark (x : Xbel) (url title : String) : Except PanicAbort XbelItem :=
  (getHighestId x).map fun h =>
    .Bookmark url (natToString ((h + 1) % 2 ^ 64)) ⟨title⟩

/- ### Event-level parsing (round-trip collaborator) -/

/-- Modelled from the spec: `Xbel::try_from_file` delegates parsing to an
external conformant XML data binding (quick_xml serde), which is not part of
this repository.  It is modelled as a reader of the XML event stream using
the same element and attribute names the serializer writes, ignoring
comments and inter-element text.  Returns the parsed items and the
unconsumed events (stopping before an unmatched end tag). -/
def parseItems : Nat → List XEvent → Option (List XbelItem × List XEvent)
  | _, [] => some ([], [])
  | 0, _ :: _ => none
  | fuel + 1, .Comment _ :: rest => parseItems fuel rest
  | fuel + 1, .Text _ :: rest => parseItems fuel rest
  | fuel + 1, .Start "bookmark" attrs :: .Start "title" [] :: .Text t :: .End "title" ::
      .End "bookmark" :: rest =>
    (match attrs.lookup "href", attrs.lookup "id" with
      | some href, some id =>
        (parseItems fuel rest).map fun pr => (.Bookmark href id ⟨t⟩ :: pr.1, pr.2)
      | _, _ => none)
  | fuel + 1, .Start "folder" attrs :: .Start "title" [] :: .Text t :: .End "title" :: rest =>
    (match attrs.lookup "id" with
      | some id =>
        (match parseItems fuel rest with
          | some (children, .End "folder" :: rest2) =>
            (parseItems fuel rest2).map fun pr => (.Folder id ⟨t⟩ children :: pr.1, pr.2)
          | _ => none)
      | none => none)
  | _ + 1, .End n :: rest => some ([], .End n :: rest)
  | _ + 1, _ => none

/-- Modelled from the spec: parsing a whole document at the event level —
the root `xbel` element with its version attribute around the item forest. -/
def parseXbelDoc (evs : List XEvent) : Option Xbel :=
  match evs with
  | .Start "xbel" attrs :: rest =>
    (match parseItems rest.length rest with
      | some (items, [.End "xbel"]) =>
        (attrs.lookup "version").map fun v => ⟨v, items⟩
      | _ => none)
  | _ => none

/-- The full event stream of a serialized document, root element included. -/
def xbelDocEvents (x : Xbel) (h : Nat) : List XEvent :=
  .Start "xbel" [("version", "1.0")] :: (innerEvents x h ++ [.End "xbel"])

/-- Event lists at which `parseItems` stops and returns: end of stream or an
enclosing end tag. -/
def isStopper : List XEvent → Prop
  | [] => True
  | .End _ :: _ => True
  | _ :: _ => False

theorem parseItems_round : ∀ (its : List XbelItem) (fuel : Nat) (rest : List XEvent),
    isStopper rest → (itemsEvents its ++ rest).length ≤ fuel →
    parseItems fuel (itemsEvents its ++ rest) = some (its, rest)
  | [], fuel, rest, hstop, hlen => by
    rw [itemsEvents, List.nil_append]
    cases rest with
    | nil => cases fuel <;> rfl
    | cons e rs =>
      cases e with
      | End n =>
        cases fuel with
        | zero => simp at hlen
        | succ f => rfl
      | Start nm at2 => exact hstop.elim
      | Text s => exact hstop.elim
      | Comment s => exact hstop.elim
  | .Bookmark href id t :: more, fuel, rest, hstop, hlen => by
    rw [itemsEvents, itemEvents] at hlen ⊢
    simp only [List.length_append, List.length_cons] at hlen
    cases fuel with
    | zero => simp at hlen
    | succ f =>
      simp only [List.cons_append, List.nil_append]
      rw [show parseItems (f + 1)
          (.Start "bookmark" [("href", href), ("id", id)] :: .Start "title" [] :: .Text t.text ::
            .End "title" :: .End "bookmark" :: (itemsEvents more ++ rest))
          = (match List.lookup "href" [("href", href), ("id", id)],
              List.lookup "id" [("href", href), ("id", id)] with
            | some href2, some id2 =>
              (parseItems f (itemsEvents more ++ rest)).map fun pr =>
                (.Bookmark href2 id2 ⟨t.text⟩ :: pr.1, pr.2)
            | _, _ => none) from rfl]
      have hl1 : List.lookup "href" [("href", href), ("id", id)] = some href := by
        simp [List.lookup]
      have hl2 : List.lookup "id" [("href", href), ("id", id)] = some id := by
        simp [List.lookup]
      rw [hl1, hl2]
      rw [parseItems_round more f rest hstop (by simp; omega)]
      rfl
  | .Folder id t children :: more, fuel, rest, hstop, hlen => by
    rw [itemsEvents, itemEvents] at hlen ⊢
    simp only [List.length_append, List.length_cons, List.cons_append, List.append_assoc,
      List.nil_append] at hlen ⊢
    cases fuel with
    | zero => simp at hlen
    | succ f =>
      rw [show parseItems (f + 1)
          (.Start "folder" [("id", id)] :: .Start "title" [] :: .Text t.text :: .End "title" ::
            (itemsEvents children ++ (.End "folder" :: (itemsEvents more ++ rest))))
          = (match List.lookup "id" [("id", id)] with
            | some id2 =>
              (match parseItems f (itemsEvents children ++ (.End "folder" :: (itemsEvents more ++ rest))) with
                | some (ch, .End "folder" :: rest2) =>
                  (parseItems f rest2).map fun pr => (.Folder id2 ⟨t.text⟩ ch :: pr.1, pr.2)
                | _ => none)
            | none => none) from rfl]
      have hl1 : List.lookup "id" [("id", id)] = some id := by simp [List.lookup]
      rw [hl1]
      have hlen1 : (itemsEvents children ++ (.End "folder" :: (itemsEvents more ++ rest))).length ≤ f := by
        simp
        omega
      rw [parseItems_round children f (.End "folder" :: (itemsEvents more ++ rest))
        trivial hlen1]
      change Option.map (fun pr => (XbelItem.Folder id ⟨t.text⟩ children :: pr.1, pr.2))
        (parseItems f (itemsEvents more ++ rest)) = _
      rw [parseItems_round more f rest hstop (by simp; omega)]
      rfl
termination_by its fuel rest => szList its
decreasing_by
  all_goals simp [szList, szItem] <;> omega

/-- Round trip at the whole-document level: parsing the serialized event
stream recovers the version attribute and the exact item forest. -/
theorem parseXbelDoc_round (x : Xbel) (h : Nat) :
    parseXbelDoc (xbelDocEvents x h) = some ⟨"1.0", x.items⟩ := by
  rw [xbelDocEvents, innerEvents]
  rw [show parseXbelDoc (XEvent.Start "xbel" [("version", "1.0")] ::
      ((XEvent.Comment (commentStr h) :: XEvent.Text "\n\n" :: itemsEvents x.items)
        ++ [XEvent.End "xbel"]))
      = (match parseItems ((XEvent.Comment (commentStr h) :: XEvent.Text "\n\n" ::
            itemsEvents x.items) ++ [XEvent.End "xbel"]).length
          ((XEvent.Comment (commentStr h) :: XEvent.Text "\n\n" :: itemsEvents x.items)
            ++ [XEvent.End "xbel"]) with
        | some (items, [XEvent.End "xbel"]) =>
          (List.lookup "version" [("version", "1.0")]).map fun v => Xbel.mk v items
        | _ => none) from rfl]
  have hlen : ((XEvent.Comment (commentStr h) :: XEvent.Text "\n\n" :: itemsEvents x.items)
      ++ [XEvent.End "xbel"]).length = ((itemsEvents x.items ++ [XEvent.End "xbel"]).length + 1) + 1 := by
    simp
  rw [hlen]
  simp only [List.cons_append]
  rw [show parseItems (((itemsEvents x.items ++ [XEvent.End "xbel"]).length + 1) + 1)
      (XEvent.Comment (commentStr h) :: XEvent.Text "\n\n" ::
        (itemsEvents x.items ++ [XEvent.End "xbel"]))
      = parseItems ((itemsEvents x.items ++ [XEvent.End "xbel"]).length + 1)
        (XEvent.Text "\n\n" :: (itemsEvents x.items ++ [XEvent.End "xbel"])) from rfl]
  rw [show parseItems ((itemsEvents x.items ++ [XEvent.End "xbel"]).length + 1)
      (XEvent.Text "\n\n" :: (itemsEvents x.items ++ [XEvent.End "xbel"]))
      = parseItems (itemsEvents x.items ++ [XEvent.End "xbel"]).length
        (itemsEvents x.items ++ [XEvent.End "xbel"]) from rfl]
  rw [parseItems_round x.items (itemsEvents x.items ++ [XEvent.End "xbel"]).length
    [XEvent.End "xbel"] trivial (Nat.le_refl _)]
  simp [List.lookup]

/- ### CLI argument model (cli_args.rs) and operations (main.rs) -/

/-- The `Placement` enum of cli_args.rs. -/
inductive Placement where
  | Before
  | After
  | InFolderPrepend
  | InFolderAppend
deriving Repr, DecidableEq

/-- The `Under` enum of cli_args.rs. -/
inductive Under where
  | Root
  | Id (id : Nat) (placement : Placement)
  | Folder (p : String)
deriving Repr, DecidableEq

/-- `impl From&lt;&amp;Under&gt; for XbelPath` (main.rs): the placement is dropped. -/
def Under.toXbelPath : Under → XbelPath
  | .Root => .Root
  | .Id i _ => .Id i
  | .Folder p => .Path p

/-- The fields of `AddArgs` used by `bookmark_add`. -/
structure AddArgs where
  url : String
  title : String
  under : Under
  disablePush : Option Bool
deriving Repr

/-- The fields of `RemoveArgs` used by `bookmark_rm`. -/
structure RemoveArgs where
  under : Under
  disablePush : Option Bool
  dryRun : Bool
deriving Repr

/-- `BookmarkAddError` (main.rs).  The payloads of the I/O and git variants
are omitted: file reading and git pushing are external collaborators. -/
inductive BookmarkAddError where
  | PushWithoutUrl
  | XbelReadError
  | XbelPathNotFound (p : XbelPath)
  | NotaFolder (id : String)
  | GitError
deriving Repr, DecidableEq

/-- `BookmarkRemoveError` (main.rs). -/
inductive BookmarkRemoveError where
  | PushWithoutUrl
  | XbelReadError
  | XbelPathNotFound (p : XbelPath)
  | GitError
deriving Repr, DecidableEq

/-- Outcome of one CLI operation run against an in-memory tree: the final
in-memory tree, the bytes written to the bookmarks file (`none` if the file
was never written), and whether the run returned normally, returned a typed
error, or aborted in a panic. -/
inductive RunOutcome (ε : Type) where
  | ok (tree : Xbel) (written : Option String)
  | err (e : ε) (tree : Xbel) (written : Option String)
  | panic (tree : Xbel) (written : Option String)
deriving Repr

/-- Applies a sibling-list rewrite at a path inside the tree. -/
def modifyXbel (x : Xbel) (p : List Nat) (g : List XbelItem → List XbelItem) : Option Xbel :=
  (modifyAtList p g x.items).map fun its => ⟨x.version, its⟩

/-- Serializes the mutated tree and reports success: `Xbel::to_file` re-runs
`to_string` (which may panic on malformed ids) and writes the bytes. -/
def writeBack {ε : Type} (x2 : Xbel) : RunOutcome ε :=
  match xbelToString x2 with
  | .error _ => .panic x2 none
  | .ok s => .ok x2 (some s)

/-- The tail of both mutation operations: serialize the mutated tree
(`Xbel::to_file`, which re-runs `to_string`) and report success.  A `none`
tree means an indexing invariant was broken (a Rust panic).  The git push
collaborator is external and assumed to succeed. -/
def finishWrite {ε : Type} (x : Xbel) (res : Option Xbel) : RunOutcome ε :=
  match res with
  | none => .panic x none
  | some x2 => writeBack x2

/-- Looks up the item the resolved `(index, path)` points at, modelling the
`items[item_index]` access of main.rs. -/
def itemAt (x : Xbel) (p : List Nat) (i : Nat) : Option XbelItem :=
  (itemsAtList p x.items).bind fun l => l.get? i

/-- `bookmark_add` (main.rs).  The bookmarks file read is external: the
already-loaded tree `x` is taken as input.  The Rust code matches on the
converted `XbelPath` and re-extracts the placement from `add_args.under`
(with an `unreachable!()` on mismatch); since the conversion is a function
of `under`, matching directly on `under` is the same control flow with the
dead branch dropped. -/
def bookmarkAdd (addArgs : AddArgs) (repositoryUrl : Option String) (x : Xbel) :
    RunOutcome BookmarkAddError :=
  if addArgs.disablePush = some false ∧ repositoryUrl = none then
    .err .PushWithoutUrl x none
  else
    match newBookmark x addArgs.url addArgs.title with
    | .error _ => .panic x none
    | .ok bookmark =>
      match getItemsMut x (Under.toXbelPath addArgs.under) with
      | .error _ => .panic x none
      | .ok none => .err (.XbelPathNotFound (Under.toXbelPath addArgs.under)) x none
      | .ok (some (itemIndex, p)) =>
        match addArgs.under with
        | .Root => finishWrite x (modifyXbel x p fun l => l ++ [bookmark])
        | .Id id placement =>
          match placement with
          | .Before => finishWrite x (modifyXbel x p fun l => insertAt l itemIndex bookmark)
          | .After => finishWrite x (modifyXbel x p fun l => insertAt l (itemIndex + 1) bookmark)
          | .InFolderPrepend =>
            match itemAt x p itemIndex with
            | some (.Folder _ _ _) =>
              finishWrite x (modifyXbel x (p ++ [itemIndex]) fun l => bookmark :: l)
            | some _ => .err (.NotaFolder (natToString id)) x none
            | none => .panic x none
          | .InFolderAppend =>
            match itemAt x p itemIndex with
            | some (.Folder _ _ _) =>
              finishWrite x (modifyXbel x (p ++ [itemIndex]) fun l => l ++ [bookmark])
            | some _ => .err (.NotaFolder (natToString id)) x none
            | none => .panic x none
        | .Folder _ =>
          match itemAt x p itemIndex with
          | some (.Folder _ _ _) =>
            finishWrite x (modifyXbel x (p ++ [itemIndex]) fun l => l ++ [bookmark])
          | some it => .err (.NotaFolder it.getId) x none
          | none => .panic x none

/-- `bookmark_rm` (main.rs).  The Root arm is the literal `unimplemented!()`
of the source (with its `// TODO: return Error` comment), i.e. a panic.  A
dry run skips the sibling-list mutation but, as in the source, the file is
still rewritten afterwards. -/
def bookmarkRm (rmArgs : RemoveArgs) (repositoryUrl : Option String) (x : Xbel) :
    RunOutcome BookmarkRemoveError :=
  if rmArgs.disablePush = some false ∧ repositoryUrl = none then
    .err .PushWithoutUrl x none
  else
    match getItemsMut x (Under.toXbelPath rmArgs.under) with
    | .error _ => .panic x none
    | .ok none => .err (.XbelPathNotFound (Under.toXbelPath rmArgs.under)) x none
    | .ok (some (itemIndex, p)) =>
      match rmArgs.under with
      | .Root => .panic x none
      | .Id _ _ =>
        if rmArgs.dryRun then finishWrite x (some x)
        else finishWrite x (modifyXbel x p fun l => removeAt l itemIndex)
      | .Folder _ =>
        if rmArgs.dryRun then finishWrite x (some x)
        else finishWrite x (modifyXbel x p fun l => removeAt l itemIndex)

/- ### Remaining helper lemmas -/

mutual
theorem maxItem_bound : ∀ (i j : XbelItem), j ∈ preorderItem i →
    ∀ m, parseU64 j.getId = some m → m ≤ maxItem i
  | .Bookmark h id t, j => by
    intro hj m hm
    rw [preorderItem] at hj
    simp at hj
    subst hj
    rw [maxItem, pid, hm]
    simp
  | .Folder id t its, j => by
    intro hj m hm
    rw [preorderItem] at hj
    rcases List.mem_cons.mp hj with hj | hj
    · subst hj
      rw [maxItem, pid, hm]
      simp
    · have := maxList_bound its j hj m hm
      rw [maxItem]
      omega
theorem maxList_bound : ∀ (l : List XbelItem) (j : XbelItem), j ∈ preorderList l →
    ∀ m, parseU64 j.getId = some m → m ≤ maxList l
  | [], j => by intro hj; rw [preorderList] at hj; simp at hj
  | i :: r, j => by
    intro hj m hm
    rw [preorderList] at hj
    rcases List.mem_append.mp hj with hj | hj
    · have := maxItem_bound i j hj m hm
      rw [maxList]
      omega
    · have := maxList_bound r j hj m hm
      rw [maxList]
      omega
end

theorem wfList_itemsAt : ∀ (p : List Nat) (root l : List XbelItem),
    itemsAtList p root = some l → wfList root = true → wfList l = true
  | [], root, l => by
    intro hp hw
    rw [itemsAtList] at hp
    injection hp with hp
    subst hp
    exact hw
  | i :: rest, root, l => by
    intro hp hw
    rw [itemsAtList] at hp
    cases hri : root.get? i with
    | none => rw [hri] at hp; simp at hp
    | some it =>
      rw [hri] at hp
      cases it with
      | Bookmark h2 id t => simp at hp
      | Folder id t sub =>
        have hmem : XbelItem.Folder id t sub ∈ root := List.get?_mem hri
        have hwf : wfItem (XbelItem.Folder id t sub) = true := wfList_mem root hw _ hmem
        rw [wfItem] at hwf
        simp only [Bool.and_eq_true] at hwf
        exact wfList_itemsAt rest sub l hp hwf.2

theorem writeBack_not_err {ε : Type} (x2 : Xbel) (e : ε) (x3 : Xbel)
    (w : Option String) : (writeBack x2 : RunOutcome ε) ≠ .err e x3 w := by
  rw [writeBack.eq_def]
  cases hts : xbelToString x2 with
  | error pe => simp
  | ok s => simp

theorem finishWrite_not_err {ε : Type} (x : Xbel) (res : Option Xbel) (e : ε)
    (x2 : Xbel) (w : Option String) : finishWrite x res ≠ .err e x2 w := by
  rw [finishWrite.eq_def]
  cases res with
  | none => simp
  | some x3 => exact writeBack_not_err x3 e x2 w

theorem writeBack_ok {ε : Type} (x3 : Xbel) (x2 : Xbel)
    (w : Option String) (h : (writeBack x3 : RunOutcome ε) = .ok x2 w) :
    x3 = x2 ∧ ∃ s, xbelToString x2 = .ok s ∧ w = some s := by
  rw [writeBack.eq_def] at h
  cases hts : xbelToString x3 with
  | error pe => rw [hts] at h; simp at h
  | ok s =>
    rw [hts] at h
    simp only [RunOutcome.ok.injEq] at h
    rcases h with ⟨h1, h2⟩
    subst h1
    exact ⟨rfl, s, hts, h2.symm⟩

theorem finishWrite_ok {ε : Type} (x : Xbel) (res : Option Xbel) (x2 : Xbel)
    (w : Option String) (h : (finishWrite x res : RunOutcome ε) = .ok x2 w) :
    res = some x2 ∧ ∃ s, xbelToString x2 = .ok s ∧ w = some s := by
  rw [finishWrite.eq_def] at h
  cases res with
  | none => simp at h
  | some x3 =>
    rcases writeBack_ok x3 x2 w h with ⟨h1, hs⟩
    subst h1
    exact ⟨rfl, hs⟩

theorem foldHighest_bad (l : List XbelItem)
    (hbad : ∃ j ∈ l, parseU64 j.getId = none) :
    ∀ acc, foldHighest acc l = .error .panicked := by
  induction l with
  | nil => rcases hbad with ⟨j, hj, _⟩; simp at hj
  | cons i r ih =>
    intro acc
    rcases hbad with ⟨j, hj, hjp⟩
    rcases List.mem_cons.mp hj with hj | hj
    · subst hj
      rw [foldHighest, hjp]
    · rw [foldHighest]
      cases hp : parseU64 i.getId with
      | none => rfl
      | some n => exact ih ⟨j, hj, hjp⟩ _

/- ### Malformed-id containment (for the panic analysis of Id resolution) -/

/-- Whether some item of the list (not descending) has an unparseable id. -/
def topBad (l : List XbelItem) : Bool :=
  l.any fun j => (parseU64 j.getId).isNone

mutual
/-- Whether the subtree rooted at an item contains an unparseable id. -/
def badIdItem : XbelItem → Bool
  | .Bookmark h id t => (parseU64 (XbelItem.getId (.Bookmark h id t))).isNone
  | .Folder id t its => (parseU64 (XbelItem.getId (.Folder id t its))).isNone || badIdList its
/-- Whether a forest contains an unparseable id. -/
def badIdList : List XbelItem → Bool
  | [] => false
  | i :: r => badIdItem i || badIdList r
end

theorem badIdList_decomp (l : List XbelItem) :
    ∀ (p : List Nat) (k : Nat),
      badIdList l = (topBad l || (childEntries p l k).any fun e => badIdList e.2) := by
  induction l with
  | nil => intro p k; simp [badIdList, topBad, childEntries]
  | cons i tl ih =>
    intro p k
    cases i with
    | Folder id t sub =>
      rw [badIdList, badIdItem, topBad, List.any_cons, childEntries, List.any_cons]
      rw [ih p (k + 1)]
      rw [topBad]
      cases hb : (parseU64 (XbelItem.getId (XbelItem.Folder id t sub))).isNone <;>
        cases badIdList sub <;>
          simp [Bool.or_comm, Bool.or_left_comm]
    | Bookmark h id t =>
      rw [badIdList, badIdItem, topBad, List.any_cons, childEntries]
      rw [ih p (k + 1)]
      rw [topBad]
      cases hb : (parseU64 (XbelItem.getId (XbelItem.Bookmark h id t))).isNone <;>
        simp [Bool.or_assoc]

mutual
theorem badIdItem_iff : ∀ i : XbelItem,
    badIdItem i = true ↔ ∃ j ∈ preorderItem i, parseU64 j.getId = none
  | .Bookmark h id t => by
    rw [badIdItem, preorderItem]
    simp [Option.isNone_iff_eq_none]
  | .Folder id t its => by
    rw [badIdItem, preorderItem]
    rw [Bool.or_eq_true, badIdList_iff its]
    simp [Option.isNone_iff_eq_none]
theorem badIdList_iff : ∀ l : List XbelItem,
    badIdList l = true ↔ ∃ j ∈ preorderList l, parseU64 j.getId = none
  | [] => by simp [badIdList, preorderList]
  | i :: r => by
    rw [badIdList, preorderList]
    rw [Bool.or_eq_true, badIdItem_iff i, badIdList_iff r]
    constructor
    · rintro (⟨j, hj, hp⟩ | ⟨j, hj, hp⟩)
      · exact ⟨j, List.mem_append.mpr (Or.inl hj), hp⟩
      · exact ⟨j, List.mem_append.mpr (Or.inr hj), hp⟩
    · rintro ⟨j, hj, hp⟩
      rcases List.mem_append.mp hj with hj | hj
      · exact Or.inl ⟨j, hj, hp⟩
      · exact Or.inr ⟨j, hj, hp⟩
end

theorem findMapId_no_match (tid : Nat) :
    ∀ (l : List XbelItem) (k : Nat), topHit tid l = false →
      findMapId tid l k = (if topBad l = true then .error .panicked else .ok none)
  | [], k, _ => by simp [findMapId, topBad]
  | i :: rest, k, hno => by
    rw [topHit, List.any_cons] at hno
    simp only [Bool.or_eq_false_iff] at hno
    rw [findMapId, topBad, List.any_cons]
    cases hp : parseU64 i.getId with
    | none => simp
    | some n =>
      have hn : n ≠ tid := by
        intro hn
        have : idHit tid i = true := (idHit_iff tid i).mpr (hn ▸ hp)
        rw [hno.1] at this
        exact Bool.false_ne_true this
      simp only [hn, if_false, hp, Option.isNone_some, Bool.false_or]
      rw [findMapId_no_match tid rest (k + 1) hno.2]
      rfl

/-- If the searched id occurs nowhere in the forests held by the queue but
some id there is malformed, the Id search panics. -/
theorem bfsId_bad_panics (tid : Nat) :
    ∀ q : List QEntry,
      (∀ e ∈ q, containsIdList tid e.2 = false) →
      (∃ e ∈ q, badIdList e.2 = true) →
      bfsId tid q = .error .panicked
  | [], _, hbad => by
    rcases hbad with ⟨e, he, _⟩
    simp at he
  | (p, l) :: rest, hno, hbad => by
    have hnol : containsIdList tid l = false := hno (p, l) (List.mem_cons_self _ _)
    have hnotop : topHit tid l = false := by
      rw [containsIdList_decomp tid l p 0] at hnol
      exact (Bool.or_eq_false_iff.mp hnol).1
    simp only [bfsId]
    rw [findMapId_no_match tid l 0 hnotop]
    by_cases hb : topBad l = true
    · simp [hb]
    · simp only [hb, if_false]
      have hno2 : ∀ e ∈ rest ++ childEntries p l 0, containsIdList tid e.2 = false := by
        intro e he
        rcases List.mem_append.mp he with he | he
        · exact hno e (List.mem_cons_of_mem _ he)
        · have hany := (Bool.or_eq_false_iff.mp
            (by rw [← containsIdList_decomp tid l p 0]; exact hnol)).2
          rw [List.any_eq_false] at hany
          have := hany e he
          simpa using this
      have hbad2 : ∃ e ∈ rest ++ childEntries p l 0, badIdList e.2 = true := by
        rcases hbad with ⟨e, he, hbe⟩
        rcases List.mem_cons.mp he with he | he
        · have hbe2 : badIdList l = true := by rw [he] at hbe; exact hbe
          rw [badIdList_decomp l p 0] at hbe2
          simp only [Bool.or_eq_true] at hbe2
          rcases hbe2 with hbe3 | hbe3
          · rw [hbe3] at hb
            exact absurd rfl hb
          · rw [List.any_eq_true] at hbe3
            rcases hbe3 with ⟨c, hc, hcb⟩
            exact ⟨c, List.mem_append.mpr (Or.inr hc), by simpa using hcb⟩
        · exact ⟨e, List.mem_append.mpr (Or.inl he), hbe⟩
      exact bfsId_bad_panics tid (rest ++ childEntries p l 0) hno2 hbad2
termination_by q => qMeasure q
decreasing_by
  simp only [qMeasure_append, qMeasure_child, qMeasure_cons]
  omega

/- ### Small concrete evaluation helpers (used by witnesses) -/

/-- Projects the final items of a successful run. -/
def RunOutcome.okItems {ε : Type} : RunOutcome ε → Option (List XbelItem)
  | .ok x _ => some x.items
  | _ => none

theorem natToString_one : natToString 1 = "1" := by
  rw [natToString, natDigits]
  norm_num
  decide

theorem flatSeq_nil : flatSeq [] = [] := by
  simp [flatSeq]

theorem getHighestId_nil (v : String) : getHighestId ⟨v, []⟩ = .ok 0 := by
  rw [getHighestId, xbelFlatSeq]
  rw [show flatSeq ([] : List XbelItem) = [] from flatSeq_nil]
  rfl

theorem newBookmark_nil (v u t : String) :
    newBookmark ⟨v, []⟩ u t = .ok (.Bookmark u "1" ⟨t⟩) := by
  rw [newBookmark, getHighestId_nil]
  simp only [Except.map]
  norm_num [natToString_one]

/- ### Claim C9 -/

/-- C9: for every tree, the highest id obtained by running the
`get_highest_id` fold over the flat depth-first iterator equals the one
obtained by running the same fold over the `Item` elements of the
nesting-aware depth-first iterator, ignoring folder-end markers. -/
theorem claim_C9_iterator_agreement (x : Xbel) :
    foldHighest 0 (xbelFlatSeq x) = foldHighest 0 ((xbelNestSeq x).filterMap itemOnly) := by
  rw [xbelFlatSeq, flatSeq_eq_preorderList, xbelNestSeq, nestSeq_filter_eq_preorderList]

/- ### Claim C6 -/

/-- C6 (code bug): invoking the remove operation with the Root address does
not return a typed structural error: `bookmark_rm` reaches the
`unimplemented!()` arm (its `// TODO: return Error` comment documents the
intended error) and panics.  Evaluated at the empty tree: the outcome is a
panic, the tree is unchanged and the file is not written. -/
theorem claim_C6_root_remove_panics :
    bookmarkRm ⟨.Root, some true, false⟩ none ⟨"1.0", []⟩
      = .panic ⟨"1.0", []⟩ none := by
  rw [bookmarkRm]
  norm_num
  rw [show getItemsMut ⟨"1.0", []⟩ (Under.toXbelPath .Root) = .ok (some (0, [])) from rfl]

/- ### Claim C3 -/

/-- C3: `new_bookmark` mints the id `highest + 1` (decimal encoded) at the
moment of the call: for every well-formed tree with highest id `h` (whose
successor fits in a u64), any `new_bookmark` call returns a bookmark with id
`natToString (h + 1)` — in particular two calls against the same snapshot
mint the same id; on the empty tree, an add under Root yields the single
bookmark with id "1", and a second mint against the same empty snapshot
yields "1" again. -/
theorem claim_C3_new_bookmark_id (x : Xbel) (u t u2 t2 : String) (h : Nat)
    (hh : getHighestId x = .ok h) (hlt : h + 1 < 2 ^ 64) :
    newBookmark x u t = .ok (.Bookmark u (natToString (h + 1)) ⟨t⟩) ∧
    (newBookmark x u2 t2).map XbelItem.getId = .ok (natToString (h + 1)) ∧
    (bookmarkAdd ⟨"https://e.com", "E", .Root, some true⟩ none ⟨"1.0", []⟩).okItems
      = some [.Bookmark "https://e.com" "1" ⟨"E"⟩] ∧
    (newBookmark ⟨"1.0", []⟩ "https://f.com" "F").map XbelItem.getId = .ok "1" := by
  have hmod : (h + 1) % 2 ^ 64 = h + 1 := Nat.mod_eq_of_lt hlt
  refine ⟨?_, ?_, ?_, ?_⟩
  · rw [newBookmark, hh]
    simp only [Except.map]
    rw [hmod]
  · rw [newBookmark, hh]
    simp only [Except.map, Option.map]
    rw [hmod]
    rfl
  · rw [bookmarkAdd]
    norm_num
    rw [newBookmark_nil]
    rw [show getItemsMut ⟨"1.0", []⟩ (Under.toXbelPath .Root) = .ok (some (0, [])) from rfl]
    simp only [Under.toXbelPath]
    rw [show modifyXbel ⟨"1.0", []⟩ []
        (fun l => l ++ [XbelItem.Bookmark "https://e.com" "1" ⟨"E"⟩])
        = some ⟨"1.0", [XbelItem.Bookmark "https://e.com" "1" ⟨"E"⟩]⟩ from by
      rw [modifyXbel, modifyAtList]
      rfl]
    rw [finishWrite]
    rw [writeBack.eq_def]
    cases hts : xbelToString ⟨"1.0", [XbelItem.Bookmark "https://e.com" "1" ⟨"E"⟩]⟩ with
    | error pe =>
      exfalso
      rw [xbelToString] at hts
      rw [show getHighestId ⟨"1.0", [XbelItem.Bookmark "https://e.com" "1" ⟨"E"⟩]⟩
          = .ok 1 from by
        rw [getHighestId, xbelFlatSeq]
        rw [show flatSeq [XbelItem.Bookmark "https://e.com" "1" ⟨"E"⟩]
            = [XbelItem.Bookmark "https://e.com" "1" ⟨"E"⟩] from by simp [flatSeq]]
        rw [foldHighest]
        rw [show parseU64 (XbelItem.getId (XbelItem.Bookmark "https://e.com" "1" ⟨"E"⟩))
            = some 1 from by decide]
        rfl] at hts
      simp [Except.map] at hts
    | ok s => rfl
  · rw [newBookmark_nil]
    rfl

/- ### Claim C7 -/

/-- C7: for every add or remove request, if address resolution fails
(`XbelPathNotFound`) or a placement check fails (`NotaFolder`), the
operation returns that typed error with the in-memory tree exactly as it was
and the bookmarks file never written. -/
theorem claim_C7_failed_ops_change_nothing :
    (∀ (addArgs : AddArgs) (url2 : Option String) (x : Xbel) (e : BookmarkAddError)
      (x2 : Xbel) (w : Option String),
      bookmarkAdd addArgs url2 x = .err e x2 w →
      ((∃ p2, e = .XbelPathNotFound p2) ∨ (∃ s2, e = .NotaFolder s2)) →
      x2 = x ∧ w = none) ∧
    (∀ (rmArgs : RemoveArgs) (url2 : Option String) (x : Xbel) (e : BookmarkRemoveError)
      (x2 : Xbel) (w : Option String),
      bookmarkRm rmArgs url2 x = .err e x2 w →
      (∃ p2, e = .XbelPathNotFound p2) →
      x2 = x ∧ w = none) := by
  constructor
  · intro addArgs url2 x e x2 w hk hkind
    rw [bookmarkAdd] at hk
    repeat' split at hk
    all_goals first
      | (simp only [RunOutcome.err.injEq] at hk
         exact ⟨hk.2.1.symm, hk.2.2.symm⟩)
      | exact absurd hk (finishWrite_not_err _ _ _ _ _)
      | (exfalso; simp at hk)
  · intro rmArgs url2 x e x2 w hk hkind
    rw [bookmarkRm] at hk
    repeat' split at hk
    all_goals first
      | (simp only [RunOutcome.err.injEq] at hk
         exact ⟨hk.2.1.symm, hk.2.2.symm⟩)
      | exact absurd hk (finishWrite_not_err _ _ _ _ _)
      | (exfalso; simp at hk)

theorem bfsId_empty_tree (tid : Nat) : bfsId tid [([], ([] : List XbelItem))] = .ok none := by
  rw [show bfsId tid [([], ([] : List XbelItem))]
      = bfsId tid ([] ++ childEntries [] ([] : List XbelItem) 0) from by
    simp [bfsId, findMapId]]
  rw [show ([] ++ childEntries [] ([] : List XbelItem) 0) = [] from by simp [childEntries]]
  simp [bfsId]

theorem bookmarkAdd_id1_empty :
    bookmarkAdd ⟨"u", "t", .Id 1 .Before, some true⟩ none ⟨"1.0", []⟩
      = .err (.XbelPathNotFound (.Id 1)) ⟨"1.0", []⟩ none := by
  rw [bookmarkAdd]
  norm_num
  rw [newBookmark_nil]
  rw [show getItemsMut ⟨"1.0", []⟩ (Under.toXbelPath (.Id 1 .Before))
      = .ok none from by
    rw [show Under.toXbelPath (.Id 1 .Before) = .Id 1 from rfl]
    rw [show getItemsMut ⟨"1.0", []⟩ (.Id 1) = bfsId 1 [([], [])] from rfl]
    exact bfsId_empty_tree 1]
  rfl

/-- Witness for C7: a concrete add whose Id address does not resolve returns
the typed not-found error, leaves the tree unchanged and writes nothing. -/
theorem claim_C7_witness :
    bookmarkAdd ⟨"u", "t", .Id 1 .Before, some true⟩ none ⟨"1.0", []⟩
        = .err (.XbelPathNotFound (.Id 1)) ⟨"1.0", []⟩ none ∧
      ((⟨"1.0", []⟩ : Xbel) = ⟨"1.0", []⟩ ∧ (none : Option String) = none) :=
  ⟨bookmarkAdd_id1_empty,
    claim_C7_failed_ops_change_nothing.1 ⟨"u", "t", .Id 1 .Before, some true⟩ none
      ⟨"1.0", []⟩ (.XbelPathNotFound (.Id 1)) ⟨"1.0", []⟩ none bookmarkAdd_id1_empty
      (Or.inl ⟨.Id 1, rfl⟩)⟩

/-- Witness for C3 at the empty tree (highest id 0). -/
theorem claim_C3_witness :
    newBookmark ⟨"1.0", []⟩ "u" "t" = .ok (.Bookmark "u" (natToString (0 + 1)) ⟨"t"⟩) ∧
    (newBookmark ⟨"1.0", []⟩ "u2" "t2").map XbelItem.getId = .ok (natToString (0 + 1)) ∧
    (bookmarkAdd ⟨"https://e.com", "E", .Root, some true⟩ none ⟨"1.0", []⟩).okItems
      = some [.Bookmark "https://e.com" "1" ⟨"E"⟩] ∧
    (newBookmark ⟨"1.0", []⟩ "https://f.com" "F").map XbelItem.getId = .ok "1" :=
  claim_C3_new_bookmark_id ⟨"1.0", []⟩ "u" "t" "u2" "t2" 0 (getHighestId_nil "1.0")
    (by norm_num)

/- ### Claim C1 -/

theorem natToString_zero : natToString 0 = "0" := by
  rw [natToString, natDigits]
  norm_num
  decide

theorem renderEvents_comment (c t : String) (evs : List XEvent) :
    renderEvents ⟨0, false⟩ (.Comment c :: .Text t :: evs)
      = "<!--" ++ c ++ "-->" ++ (t ++ renderEvents ⟨0, false⟩ evs) := by
  simp only [renderEvents]
  simp [String.append_assoc]

theorem dataMerge1 (z : List Char) :
    "<!--".data ++ ("- highestId :".data ++ z) = "<!--- highestId :".data ++ z := by
  rw [← List.append_assoc]
  rfl

theorem dataMerge2 (z : List Char) :
    ": for Floccus bookmark sync browser extension ".data ++ ("-->".data ++ z)
      = ": for Floccus bookmark sync browser extension -->".data ++ z := by
  rw [← List.append_assoc]
  rfl

/-- C1 (amended): serialization starts with the fixed prolog and DOCTYPE
lines, the root element, and — before any folder or bookmark — the comment
`&lt;!--- highestId :N: for Floccus bookmark sync browser extension --&gt;`,
where N is the highest id recomputed by a full traversal at serialization
time.  The comment delimiter carries three dashes, not two: the comment text
of the source starts with a dash and a space. -/
theorem claim_C1_amended_serializer_prefix (x : Xbel) (h : Nat)
    (hh : getHighestId x = .ok h) :
    ∃ r : List Char, (xbelToString x).map String.data
      = .ok ((xmlHeader ++ xbelStart).data ++ ("<!--- highestId :".data
          ++ ((natToString h).data ++ (": for Floccus bookmark sync browser extension -->".data
          ++ ("\n\n".data ++ r))))) := by
  refine ⟨(renderEvents ⟨0, false⟩ (itemsEvents x.items) ++ xbelEnd).data, ?_⟩
  rw [xbelToString, hh]
  simp only [Except.map]
  congr 1
  rw [innerEvents, renderEvents_comment, commentStr]
  simp only [String.data_append, List.append_assoc]
  rw [dataMerge1, dataMerge2]

/-- Witness for the amended C1 at the empty tree. -/
theorem claim_C1_amended_witness :
    ∃ r : List Char, (xbelToString ⟨"1.0", []⟩).map String.data
      = .ok ((xmlHeader ++ xbelStart).data ++ ("<!--- highestId :".data
          ++ ((natToString 0).data ++ (": for Floccus bookmark sync browser extension -->".data
          ++ ("\n\n".data ++ r))))) :=
  claim_C1_amended_serializer_prefix ⟨"1.0", []⟩ 0 (getHighestId_nil "1.0")

theorem commentStr_zero :
    commentStr 0 = "- highestId :0: for Floccus bookmark sync browser extension " := by
  rw [commentStr, natToString_zero]
  rfl

set_option maxRecDepth 16384 in
/-- C1 (counterexample): the claimed literal shape with a two-dash comment
opener, `&lt;!-- highestId :N: ...`, is not a prefix of the serializer output:
at the empty tree the output opens the comment as `&lt;!---`. -/
theorem claim_C1_counterexample :
    (xbelToString ⟨"1.0", []⟩).map (fun out =>
        List.isPrefixOf (xmlHeader ++ xbelStart
          ++ "<!-- highestId :0: for Floccus bookmark sync browser extension -->").data out.data)
      = .ok false := by
  rw [xbelToString, getHighestId_nil]
  simp only [Except.map]
  congr 1

/- ### Claim C2 -/

/-- C2: parsing the serialized event stream of any tree yields a tree with
exactly the same items (ids, titles, hrefs and nesting order); moreover the
comment in the stream is the deterministic function `commentStr` of the
recomputed highest id, and the byte output always begins with the fixed
header (prolog and DOCTYPE), not with bytes preserved from an earlier file. -/
theorem claim_C2_roundtrip (x : Xbel) (h : Nat) (hh : getHighestId x = .ok h) :
    (parseXbelDoc (xbelDocEvents x h)).map Xbel.items = some x.items ∧
    xbelDocEvents x h = .Start "xbel" [("version", "1.0")]
      :: .Comment (commentStr h) :: .Text "\n\n" :: (itemsEvents x.items ++ [.End "xbel"]) ∧
    (∃ s, xbelToString x = .ok s ∧ ∃ r, s = xmlHeader ++ r) := by
  refine ⟨?_, rfl, ?_⟩
  · rw [parseXbelDoc_round]
    rfl
  · refine ⟨xmlHeader ++ xbelStart ++ renderEvents ⟨0, false⟩ (innerEvents x h) ++ xbelEnd, ?_, ?_⟩
    · rw [xbelToString, hh]
      rfl
    · refine ⟨xbelStart ++ (renderEvents ⟨0, false⟩ (innerEvents x h) ++ xbelEnd), ?_⟩
      simp [String.append_assoc]

/-- The nested scenario tree: folder 1 (admin) holding folder 2 (bank) with
bookmarks 3 and 4, and bookmark 5. -/
def treeB : Xbel :=
  ⟨"1.0", [.Folder "1" ⟨"admin"⟩
    [.Folder "2" ⟨"bank"⟩
      [.Bookmark "https://www.bank1.com/" "3" ⟨"Bank 1"⟩,
       .Bookmark "https://www.bank2.com" "4" ⟨"Bank 2"⟩],
     .Bookmark "https://www.bank3.com" "5" ⟨"My bank"⟩]]⟩

theorem getHighestId_treeB : getHighestId treeB = .ok 5 := by
  rw [getHighestId, xbelFlatSeq]
  rw [show flatSeq treeB.items
      = [.Folder "1" ⟨"admin"⟩
          [.Folder "2" ⟨"bank"⟩
            [.Bookmark "https://www.bank1.com/" "3" ⟨"Bank 1"⟩,
             .Bookmark "https://www.bank2.com" "4" ⟨"Bank 2"⟩],
           .Bookmark "https://www.bank3.com" "5" ⟨"My bank"⟩],
         .Folder "2" ⟨"bank"⟩
          [.Bookmark "https://www.bank1.com/" "3" ⟨"Bank 1"⟩,
           .Bookmark "https://www.bank2.com" "4" ⟨"Bank 2"⟩],
         .Bookmark "https://www.bank1.com/" "3" ⟨"Bank 1"⟩,
         .Bookmark "https://www.bank2.com" "4" ⟨"Bank 2"⟩,
         .Bookmark "https://www.bank3.com" "5" ⟨"My bank"⟩] from by
    simp [treeB, flatSeq]]
  simp only [foldHighest, XbelItem.getId,
    show parseU64 "1" = some 1 from by decide,
    show parseU64 "2" = some 2 from by decide,
    show parseU64 "3" = some 3 from by decide,
    show parseU64 "4" = some 4 from by decide,
    show parseU64 "5" = some 5 from by decide]
  norm_num

/-- Witness for C2 at the nested scenario tree (highest id 5). -/
theorem claim_C2_witness :
    (parseXbelDoc (xbelDocEvents treeB 5)).map Xbel.items = some treeB.items ∧
    xbelDocEvents treeB 5 = .Start "xbel" [("version", "1.0")]
      :: .Comment (commentStr 5) :: .Text "\n\n" :: (itemsEvents treeB.items ++ [.End "xbel"]) ∧
    (∃ s, xbelToString treeB = .ok s ∧ ∃ r, s = xmlHeader ++ r) :=
  claim_C2_roundtrip treeB 5 getHighestId_treeB

/- ### Claim C4 -/

/-- C4: on a well-formed tree, `get_items_mut` with an Id address equals the
level-by-level breadth-first specification `resolveIdSpec` (first match in
level order, folders expanded in encounter order); the specification finds
nothing exactly when no item of the tree carries the id; and an unresolved
Id address is surfaced by `bookmark_add` as the typed not-found error. -/
theorem claim_C4_id_resolution (x : Xbel) (n : Nat) (hwf : wfList x.items = true) :
    getItemsMut x (.Id n) = .ok (resolveIdSpec x n) ∧
    (resolveIdSpec x n = none ↔ ∀ j ∈ preorderList x.items, parseU64 j.getId ≠ some n) ∧
    (getItemsMut x (.Id n) = .ok none →
      ∀ (u t : String) (pl : Placement) (dp : Option Bool) (url2 : Option String),
        ¬(dp = some false ∧ url2 = none) →
        bookmarkAdd ⟨u, t, .Id n pl, dp⟩ url2 x
          = .err (.XbelPathNotFound (.Id n)) x none) := by
  refine ⟨?_, resolveIdSpec_none_iff x n, ?_⟩
  · rw [show getItemsMut x (.Id n) = bfsId n [([], x.items)] from rfl]
    rw [bfsId_eq_spec n [([], x.items)] ?_]
    · rfl
    · intro e he
      rcases List.mem_cons.mp he with he | he
      · rw [he]
        exact hwf
      · simp at he
  · intro hnone u t pl dp url2 hno
    rw [bookmarkAdd]
    rw [if_neg hno]
    rw [newBookmark, getHighestId_wf x hwf]
    simp only [Except.map]
    rw [show Under.toXbelPath (.Id n pl) = XbelPath.Id n from rfl]
    rw [hnone]

theorem wfList_treeB : wfList treeB.items = true := by
  rw [show treeB.items
      = [.Folder "1" ⟨"admin"⟩
          [.Folder "2" ⟨"bank"⟩
            [.Bookmark "https://www.bank1.com/" "3" ⟨"Bank 1"⟩,
             .Bookmark "https://www.bank2.com" "4" ⟨"Bank 2"⟩],
           .Bookmark "https://www.bank3.com" "5" ⟨"My bank"⟩]] from rfl]
  simp only [wfList, wfItem, XbelItem.getId,
    show parseU64 "1" = some 1 from by decide,
    show parseU64 "2" = some 2 from by decide,
    show parseU64 "3" = some 3 from by decide,
    show parseU64 "4" = some 4 from by decide,
    show parseU64 "5" = some 5 from by decide]
  rfl

/-- Witness for C4 at the nested scenario tree and id 4. -/
theorem claim_C4_witness :
    getItemsMut treeB (.Id 4) = .ok (resolveIdSpec treeB 4) ∧
    (resolveIdSpec treeB 4 = none ↔ ∀ j ∈ preorderList treeB.items, parseU64 j.getId ≠ some 4) ∧
    (getItemsMut treeB (.Id 4) = .ok none →
      ∀ (u t : String) (pl : Placement) (dp : Option Bool) (url2 : Option String),
        ¬(dp = some false ∧ url2 = none) →
        bookmarkAdd ⟨u, t, .Id 4 pl, dp⟩ url2 treeB
          = .err (.XbelPathNotFound (.Id 4)) treeB none) :=
  claim_C4_id_resolution treeB 4 wfList_treeB

/- ### Claim C5 -/

/-- The Path resolution rule exactly as claim C5 states it (this is the
claim's description, not the code): segment by segment; a non-last matched
item must be a Folder, and its children become the next sibling list to
search; the last segment's match is returned whatever its kind. -/
def pathResolveClaimed : List String → List XbelItem → List Nat → Option (Nat × List Nat)
  | [], _, _ => none
  | [seg], l, p => (findTitleIdx seg l 0).map fun i => (i, p)
  | seg :: seg2 :: rest, l, p =>
    match findTitleIdx seg l 0 with
    | none => none
    | some i =>
      match l.get? i with
      | some (.Folder _ _ sub) => pathResolveClaimed (seg2 :: rest) sub (p ++ [i])
      | _ => none

/-- Two top-level folders: "x" (with a bookmark titled "b" inside) before
"a" (also with a bookmark titled "b" inside). -/
def treeC5 : Xbel :=
  ⟨"1.0", [.Folder "1" ⟨"x"⟩ [.Bookmark "https://in-x.com" "2" ⟨"b"⟩],
           .Folder "3" ⟨"a"⟩ [.Bookmark "https://in-a.com" "4" ⟨"b"⟩]]⟩

theorem getItemsMut_treeC5 :
    getItemsMut treeC5 (.Path "a/b") = .ok (some (0, [0])) := by
  rw [show getItemsMut treeC5 (.Path "a/b")
      = .ok (bfsPath (splitSlash "a/b".data) 0 [([], treeC5.items)]) from rfl]
  rw [show splitSlash "a/b".data = ["a", "b"] from by decide]
  congr 1
  rw [show bfsPath ["a", "b"] 0 [([], treeC5.items)]
      = bfsPath ["a", "b"] 1 ([] ++ childEntries [] treeC5.items 0) from by
    simp [bfsPath, findTitleIdx, treeC5, XbelItem.getTitle]]
  rw [show ([] ++ childEntries [] treeC5.items 0)
      = [([0], [XbelItem.Bookmark "https://in-x.com" "2" ⟨"b"⟩]),
         ([1], [XbelItem.Bookmark "https://in-a.com" "4" ⟨"b"⟩])] from by
    simp [childEntries, treeC5]]
  simp [bfsPath, findTitleIdx, XbelItem.getTitle]

/-- C5 (counterexample): on `treeC5` and path "a/b", the code resolves to
the bookmark inside folder "x" (the next sibling list in global BFS order),
not to the child list of the matched folder "a" as the claim mandates; the
matched mid-path item is also never required to be a folder. -/
theorem claim_C5_counterexample :
    getItemsMut treeC5 (.Path "a/b") = .ok (some (0, [0])) ∧
    pathResolveClaimed (splitSlash "a/b".data) treeC5.items [] = some (0, [1]) ∧
    ((0, [0]) : Nat × List Nat) ≠ (0, [1]) ∧
    itemAt treeC5 [0] 0 = some (.Bookmark "https://in-x.com" "2" ⟨"b"⟩) ∧
    itemAt treeC5 [1] 0 = some (.Bookmark "https://in-a.com" "4" ⟨"b"⟩) := by
  exact ⟨getItemsMut_treeC5, by decide, by simp, rfl, rfl⟩

/-- C5 (amended): Path resolution is a single global breadth-first traversal
with a segment cursor; it neither requires a mid-path match to be a folder
nor restricts the next search to the matched folder's children.  What holds
of a successful resolution: the returned path dereferences to a sibling list
of the tree, and the returned index points at the first item of that list
whose title equals the LAST segment of the path. -/
theorem claim_C5_amended_path_resolution (x : Xbel) (s : String) (i : Nat) (p : List Nat)
    (hres : getItemsMut x (.Path s) = .ok (some (i, p))) :
    ∃ l, itemsAtList p x.items = some l ∧ i < l.length ∧
      (∃ it, l.get? i = some it ∧ (XbelItem.getTitle it).text = lastSeg (splitSlash s.data)) ∧
      ∀ j < i, ∀ it2, l.get? j = some it2 →
        (XbelItem.getTitle it2).text ≠ lastSeg (splitSlash s.data) := by
  rw [show getItemsMut x (.Path s)
      = .ok (bfsPath (splitSlash s.data) 0 [([], x.items)]) from rfl] at hres
  simp only [Except.ok.injEq] at hres
  refine bfsPath_some_char (splitSlash s.data) x.items 0 [([], x.items)] ?_
    (splitSlash_length_pos _) i p hres
  intro e he
  rcases List.mem_cons.mp he with he | he
  · rw [he]
    rfl
  · simp at he

/-- Witness for the amended C5: the concrete resolution of "a/b" on
`treeC5` satisfies the soundness properties. -/
theorem claim_C5_amended_witness :
    ∃ l, itemsAtList [0] treeC5.items = some l ∧ 0 < l.length ∧
      (∃ it, l.get? 0 = some it ∧
        (XbelItem.getTitle it).text = lastSeg (splitSlash "a/b".data)) ∧
      ∀ j < 0, ∀ it2, l.get? j = some it2 →
        (XbelItem.getTitle it2).text ≠ lastSeg (splitSlash "a/b".data) :=
  claim_C5_amended_path_resolution treeC5 "a/b" 0 [0] getItemsMut_treeC5

/- ### Claim C8 -/

/-- C8 (counterexample): on a tree containing the unparseable id "oops",
highest-id computation and Id resolution do not return a typed MalformedId
error (no such error kind exists in the code): both panic, aborting the
process. -/
theorem claim_C8_counterexample :
    getHighestId ⟨"1.0", [.Bookmark "u" "oops" ⟨"t"⟩]⟩ = .error .panicked ∧
    getItemsMut ⟨"1.0", [.Bookmark "u" "oops" ⟨"t"⟩]⟩ (.Id 5) = .error .panicked := by
  constructor
  · rw [getHighestId, xbelFlatSeq]
    rw [show flatSeq [XbelItem.Bookmark "u" "oops" ⟨"t"⟩]
        = [XbelItem.Bookmark "u" "oops" ⟨"t"⟩] from by simp [flatSeq]]
    rw [foldHighest]
    rw [show parseU64 (XbelItem.getId (XbelItem.Bookmark "u" "oops" ⟨"t"⟩))
        = none from by decide]
  · rw [show getItemsMut ⟨"1.0", [XbelItem.Bookmark "u" "oops" ⟨"t"⟩]⟩ (.Id 5)
        = bfsId 5 [([], [XbelItem.Bookmark "u" "oops" ⟨"t"⟩])] from rfl]
    simp [bfsId, findMapId,
      show parseU64 (XbelItem.getId (XbelItem.Bookmark "u" "oops" ⟨"t"⟩))
        = none from by decide]

/-- C8 (amended): an unparseable id is never surfaced as a typed error.
`get_highest_id` panics whenever the tree contains one, and Id resolution
panics whenever the searched id is absent (so that the traversal reaches the
malformed id's sibling list and unwraps the failed parse). -/
theorem claim_C8_amended_malformed_id_panics (x : Xbel) (n : Nat)
    (hbad : ∃ j ∈ preorderList x.items, parseU64 j.getId = none) :
    getHighestId x = .error .panicked ∧
    ((∀ j ∈ preorderList x.items, parseU64 j.getId ≠ some n) →
      getItemsMut x (.Id n) = .error .panicked) := by
  constructor
  · rw [getHighestId, xbelFlatSeq, flatSeq_eq_preorderList]
    exact foldHighest_bad _ hbad 0
  · intro hno
    rw [show getItemsMut x (.Id n) = bfsId n [([], x.items)] from rfl]
    apply bfsId_bad_panics
    · intro e he
      rcases List.mem_cons.mp he with he | he
      · rw [he]
        have hne : containsIdList n x.items ≠ true := by
          intro hc
          rcases (containsIdList_iff n x.items).mp hc with ⟨j, hj, hp⟩
          exact hno j hj hp
        simpa using hne
      · simp at he
    · exact ⟨([], x.items), List.mem_cons_self _ _, (badIdList_iff x.items).mpr hbad⟩

/-- Witness for the amended C8 at a concrete malformed tree. -/
theorem claim_C8_amended_witness :
    getHighestId ⟨"1.0", [.Bookmark "u2" "zzz" ⟨"t2"⟩]⟩ = .error .panicked ∧
    ((∀ j ∈ preorderList [XbelItem.Bookmark "u2" "zzz" ⟨"t2"⟩],
        parseU64 j.getId ≠ some 7) →
      getItemsMut ⟨"1.0", [.Bookmark "u2" "zzz" ⟨"t2"⟩]⟩ (.Id 7) = .error .panicked) :=
  claim_C8_amended_malformed_id_panics ⟨"1.0", [.Bookmark "u2" "zzz" ⟨"t2"⟩]⟩ 7
    (by decide)

/- ### Claim C10 -/

theorem addFinish_highest (x x2 : Xbel) (w : Option String) (p : List Nat)
    (g : List XbelItem → List XbelItem) (l : List XbelItem) (K : Nat)
    (hwf : wfList x.items = true)
    (hp : itemsAtList p x.items = some l)
    (hmax : maxList (g l) = max K (maxList l))
    (hgwf : wfList l = true → wfList (g l) = true)
    (hfin : finishWrite x (modifyXbel x p g) = (.ok x2 w : RunOutcome BookmarkAddError)) :
    getHighestId x2 = .ok (max K (maxList x.items)) := by
  rcases modifyAt_both g K p x.items l hp hmax hgwf with ⟨root2, hm, hmax2, hwf2⟩
  rcases finishWrite_ok x _ x2 w hfin with ⟨hsome, s, hts, hw⟩
  rw [modifyXbel, hm] at hsome
  simp only [Option.map, Option.some.injEq] at hsome
  have hx2 : x2 = ⟨x.version, root2⟩ := hsome.symm
  subst hx2
  rw [getHighestId_wf _ (hwf2 hwf)]
  rw [show (⟨x.version, root2⟩ : Xbel).items = root2 from rfl, hmax2]

/-- C10: a successful `bookmark_add` of the bookmark minted by
`new_bookmark` — under any address and placement — raises the tree's highest
id from `h` to exactly `h + 1`; and the minted id `h + 1` is strictly
greater than every id already present in the snapshot, so it cannot collide
with an existing item. -/
theorem claim_C10_add_increments_highest (addArgs : AddArgs) (url2 : Option String)
    (x x2 : Xbel) (w : Option String) (h : Nat)
    (hwf : wfList x.items = true) (hh : getHighestId x = .ok h) (hlt : h + 1 < 2 ^ 64)
    (hok : bookmarkAdd addArgs url2 x = .ok x2 w) :
    getHighestId x2 = .ok (h + 1) ∧
    ∀ j ∈ preorderList x.items, ∀ m, parseU64 j.getId = some m → m < h + 1 := by
  have hmaxeq : maxList x.items = h := by
    have := getHighestId_wf x hwf
    rw [hh] at this
    injection this with this
    exact this.symm
  have hbound : ∀ j ∈ preorderList x.items, ∀ m, parseU64 j.getId = some m → m < h + 1 := by
    intro j hj m hm
    have := maxList_bound x.items j hj m hm
    omega
  refine ⟨?_, hbound⟩
  have hBid : parseU64 (natToString (h + 1)) = some (h + 1) := parseU64_natToString _ hlt
  have hBmax : maxItem (.Bookmark addArgs.url (natToString (h + 1)) ⟨addArgs.title⟩) = h + 1 := by
    rw [maxItem, pid]
    rw [show XbelItem.getId (.Bookmark addArgs.url (natToString (h + 1)) ⟨addArgs.title⟩)
        = natToString (h + 1) from rfl]
    rw [hBid]
    rfl
  have hBwf : wfItem (.Bookmark addArgs.url (natToString (h + 1)) ⟨addArgs.title⟩) = true := by
    rw [wfItem]
    rw [hBid]
    rfl
  have hfinal : max (h + 1) (maxList x.items) = h + 1 := by omega
  have hB : newBookmark x addArgs.url addArgs.title
      = .ok (.Bookmark addArgs.url (natToString (h + 1)) ⟨addArgs.title⟩) := by
    rw [newBookmark, hh]
    simp only [Except.map]
    rw [Nat.mod_eq_of_lt hlt]
  rw [bookmarkAdd] at hok
  by_cases hpush : addArgs.disablePush = some false ∧ url2 = none
  · rw [if_pos hpush] at hok
    simp at hok
  · rw [if_neg hpush] at hok
    rw [hB] at hok
    cases hres : getItemsMut x (Under.toXbelPath addArgs.under) with
    | error pe =>
      rw [hres] at hok
      simp at hok
    | ok r =>
      rw [hres] at hok
      cases r with
      | none => simp at hok
      | some ip =>
        obtain ⟨i, p⟩ := ip
        cases hu : addArgs.under with
        | Root =>
          rw [hu] at hok hres
          have hip : i = 0 ∧ p = [] := by
            rw [show Under.toXbelPath .Root = XbelPath.Root from rfl] at hres
            rw [show getItemsMut x XbelPath.Root = .ok (some (0, [])) from rfl] at hres
            simp only [Except.ok.injEq, Option.some.injEq, Prod.mk.injEq] at hres
            exact ⟨hres.1.symm, hres.2.symm⟩
          rcases hip with ⟨hi, hp2⟩
          subst hi; subst hp2
          have hstep := addFinish_highest x x2 w [] _ x.items (h + 1) hwf rfl
            ((maxList_snoc x.items _).trans (by rw [hBmax]))
            (fun hwl => wfList_snoc x.items _ hwl hBwf) hok
          rw [hfinal] at hstep
          exact hstep
        | Id id placement =>
          rw [hu] at hok hres
          rw [show Under.toXbelPath (.Id id placement) = XbelPath.Id id from rfl] at hres
          rw [show getItemsMut x (XbelPath.Id id) = bfsId id [([], x.items)] from rfl] at hres
          have hchar := bfsId_ok_char id x.items [([], x.items)]
            (by
              intro e he
              rcases List.mem_cons.mp he with he | he
              · rw [he]; rfl
              · simp at he) i p hres
          rcases hchar with ⟨l, hpL, hiL, it, hgetL, hpidL⟩
          cases placement with
          | Before =>
            have hstep := addFinish_highest x x2 w p _ l (h + 1) hwf hpL
              ((maxList_insertAt _ l i (Nat.le_of_lt hiL)).trans (by rw [hBmax]))
              (fun hwl => wfList_insertAt _ l i (Nat.le_of_lt hiL) hwl hBwf) hok
            rw [hfinal] at hstep
            exact hstep
          | After =>
            have hstep := addFinish_highest x x2 w p _ l (h + 1) hwf hpL
              ((maxList_insertAt _ l (i + 1) (by omega)).trans (by rw [hBmax]))
              (fun hwl => wfList_insertAt _ l (i + 1) (by omega) hwl hBwf) hok
            rw [hfinal] at hstep
            exact hstep
          | InFolderPrepend =>
            simp only [itemAt] at hok
            rw [hpL] at hok
            simp only [Option.bind] at hok
            cases hgi : l.get? i with
            | none => rw [hgi] at hok; simp at hok
            | some it2 =>
              rw [hgi] at hok
              cases it2 with
              | Bookmark bh bid bt => simp at hok
              | Folder fid ft sub =>
                have hsub : itemsAtList (p ++ [i]) x.items = some sub :=
                  itemsAtList_snoc i fid ft sub p x.items l hpL hgi
                have hstep := addFinish_highest x x2 w (p ++ [i]) _ sub (h + 1) hwf hsub
                  (by rw [maxList_cons_front, hBmax])
                  (by
                    intro hwl
                    rw [wfList]
                    simp only [Bool.and_eq_true]
                    exact ⟨hBwf, hwl⟩) hok
                rw [hfinal] at hstep
                exact hstep
          | InFolderAppend =>
            simp only [itemAt] at hok
            rw [hpL] at hok
            simp only [Option.bind] at hok
            cases hgi : l.get? i with
            | none => rw [hgi] at hok; simp at hok
            | some it2 =>
              rw [hgi] at hok
              cases it2 with
              | Bookmark bh bid bt => simp at hok
              | Folder fid ft sub =>
                have hsub : itemsAtList (p ++ [i]) x.items = some sub :=
                  itemsAtList_snoc i fid ft sub p x.items l hpL hgi
                have hstep := addFinish_highest x x2 w (p ++ [i]) _ sub (h + 1) hwf hsub
                  ((maxList_snoc sub _).trans (by rw [hBmax]))
                  (fun hwl => wfList_snoc sub _ hwl hBwf) hok
                rw [hfinal] at hstep
                exact hstep
        | Folder s =>
          rw [hu] at hok hres
          rw [show Under.toXbelPath (.Folder s) = XbelPath.Path s from rfl] at hres
          rw [show getItemsMut x (XbelPath.Path s)
              = .ok (bfsPath (splitSlash s.data) 0 [([], x.items)]) from rfl] at hres
          simp only [Except.ok.injEq] at hres
          have hchar := bfsPath_some_char (splitSlash s.data) x.items 0 [([], x.items)]
            (by
              intro e he
              rcases List.mem_cons.mp he with he | he
              · rw [he]; rfl
              · simp at he) (splitSlash_length_pos _) i p hres
          rcases hchar with ⟨l, hpL, hiL, _, _⟩
          simp only [itemAt] at hok
          rw [hpL] at hok
          simp only [Option.bind] at hok
          cases hgi : l.get? i with
          | none => rw [hgi] at hok; simp at hok
          | some it2 =>
            rw [hgi] at hok
            cases it2 with
            | Bookmark bh bid bt => simp at hok
            | Folder fid ft sub =>
              have hsub : itemsAtList (p ++ [i]) x.items = some sub :=
                itemsAtList_snoc i fid ft sub p x.items l hpL hgi
              have hstep := addFinish_highest x x2 w (p ++ [i]) _ sub (h + 1) hwf hsub
                ((maxList_snoc sub _).trans (by rw [hBmax]))
                (fun hwl => wfList_snoc sub _ hwl hBwf) hok
              rw [hfinal] at hstep
              exact hstep

theorem getHighestId_oneE :
    getHighestId ⟨"1.0", [.Bookmark "https://e.com" "1" ⟨"E"⟩]⟩ = .ok 1 := by
  rw [getHighestId, xbelFlatSeq]
  rw [show flatSeq [XbelItem.Bookmark "https://e.com" "1" ⟨"E"⟩]
      = [XbelItem.Bookmark "https://e.com" "1" ⟨"E"⟩] from by simp [flatSeq]]
  rw [foldHighest]
  rw [show parseU64 (XbelItem.getId (XbelItem.Bookmark "https://e.com" "1" ⟨"E"⟩))
      = some 1 from by decide]
  rfl

theorem bookmarkAdd_root_empty_eval :
    bookmarkAdd ⟨"https://e.com", "E", .Root, some true⟩ none ⟨"1.0", []⟩
      = .ok ⟨"1.0", [.Bookmark "https://e.com" "1" ⟨"E"⟩]⟩
        (some (xmlHeader ++ xbelStart
          ++ renderEvents ⟨0, false⟩
            (innerEvents ⟨"1.0", [.Bookmark "https://e.com" "1" ⟨"E"⟩]⟩ 1)
          ++ xbelEnd)) := by
  rw [bookmarkAdd]
  norm_num
  rw [newBookmark_nil]
  rw [show getItemsMut ⟨"1.0", []⟩ (Under.toXbelPath .Root) = .ok (some (0, [])) from rfl]
  change finishWrite ⟨"1.0", []⟩
    (modifyXbel ⟨"1.0", []⟩ [] fun l => l ++ [XbelItem.Bookmark "https://e.com" "1" ⟨"E"⟩]) = _
  rw [show modifyXbel ⟨"1.0", []⟩ [] (fun l => l ++ [XbelItem.Bookmark "https://e.com" "1" ⟨"E"⟩])
      = some ⟨"1.0", [XbelItem.Bookmark "https://e.com" "1" ⟨"E"⟩]⟩ from by
    rw [modifyXbel, modifyAtList]
    rfl]
  rw [finishWrite]
  rw [writeBack.eq_def]
  rw [show xbelToString ⟨"1.0", [XbelItem.Bookmark "https://e.com" "1" ⟨"E"⟩]⟩
      = .ok (xmlHeader ++ xbelStart
          ++ renderEvents ⟨0, false⟩
            (innerEvents ⟨"1.0", [.Bookmark "https://e.com" "1" ⟨"E"⟩]⟩ 1)
          ++ xbelEnd) from by
    rw [xbelToString, getHighestId_oneE]
    rfl]

/-- Witness for C10: adding under Root to the empty tree (highest id 0)
yields a tree with highest id 1. -/
theorem claim_C10_witness :
    getHighestId ⟨"1.0", [.Bookmark "https://e.com" "1" ⟨"E"⟩]⟩ = .ok (0 + 1) ∧
    ∀ j ∈ preorderList (⟨"1.0", []⟩ : Xbel).items, ∀ m,
      parseU64 j.getId = some m → m < 0 + 1 :=
  claim_C10_add_increments_highest ⟨"https://e.com", "E", .Root, some true⟩ none
    ⟨"1.0", []⟩ ⟨"1.0", [.Bookmark "https://e.com" "1" ⟨"E"⟩]⟩
    (some (xmlHeader ++ xbelStart
      ++ renderEvents ⟨0, false⟩
        (innerEvents ⟨"1.0", [.Bookmark "https://e.com" "1" ⟨"E"⟩]⟩ 1)
      ++ xbelEnd)) 0
    rfl (getHighestId_nil "1.0") (by norm_num) bookmarkAdd_root_empty_eval
